import Mathlib

/-!
Verification of the upload orchestration engine of `bulk_upload.py`
(OSM bulk upload script) together with the vendored `graph/graph.py`
digraph library.

The Python source is shallowly embedded: every class becomes a structure,
every method a pure function on that structure; the mutable interpreter
state that matters to the claims (network requests issued, the id map,
the server's responses) is threaded explicitly through an `MState` value.
Python exceptions become `Except PyErr`; since an exception in Python
leaves already-performed side effects in place, every fallible operation
returns its final `MState` next to the `Except` outcome.

External collaborators (the HTTP transport and the server) are modelled
as data carried by `MState`: the server's per-upload diff results are an
arbitrary function `oracle`, and server-assigned changeset ids come from
a counter.  `MState` also carries two ghost logs (`stampedLog`,
`submittedLog`) and `ImportProcessor` keeps the ghost list
`pastChangesets`; they record what happened for use in specifications
only and are never read by the embedded code itself.
-/

/-- A `<member>` child of a relation element: its `type` attribute and its
optional `ref` attribute. -/
structure Member where
  mtype : String
  ref : Option String
deriving DecidableEq, Repr

/-- An XML element of the input document (a `<node>`, `<way>` or
`<relation>`), with the attributes and children the script reads:
`attrib[id]`, `attrib[action]`, `attrib[changeset]`, the `<nd>` children
(each with an optional `ref`) and the `<member>` children. -/
structure XElem where
  tag : String
  id : String
  action : Option String
  changesetAttr : Option String
  nds : List (Option String)
  members : List Member
deriving DecidableEq, Repr

/-- The Python exceptions of `bulk_upload.py` and `graph.py` that the
claims are about, plus the `KeyError` raised by dict lookups. -/
inductive PyErr where
  | xmlException (msg : String)
  | changesetClosed
  | diffSetClosed
  | keyError (key : String)
  | additionError
deriving DecidableEq, Repr

/-- A network request issued to the API: creating a changeset, uploading
a diff set (with its three payload lists, in order), or closing a
changeset. -/
inductive NetEvent where
  | changesetCreate (csid : String)
  | diffUpload (csid : String) (creates modifies deletes : List XElem)
  | changesetClose (csid : String)
deriving DecidableEq, Repr

def NetEvent.isUpload : NetEvent → Bool
  | .diffUpload _ _ _ _ => true
  | _ => false

def NetEvent.isCreate : NetEvent → Bool
  | .changesetCreate _ => true
  | _ => false

def NetEvent.isClose : NetEvent → Bool
  | .changesetClose _ => true
  | _ => false

/-- One child of the `<diffResult>` returned by the server for an
uploaded diff set: the element kind, its `old_id`, and its `new_id`
(absent for deleted objects). -/
structure DiffResultElem where
  tag : String
  old_id : String
  new_id : Option String
deriving DecidableEq, Repr

/-- The contents of `IdMap.id_map`: the nested dict mapping an element
kind and an old (source) id to the new (permanent) id, modelled as a
total function returning `none` for missing keys. -/
def IdMapData := String → String → Option String

/-- The empty id map `{'node':{}, 'way':{}, 'relation':{}}` (the class
default of `IdMap`). -/
def IdMapData.empty : IdMapData := fun _ _ => none

/-- One assignment `self.id_map[id_type][old_id] = ...` performed by
`DiffSet.processResult` for one `<diffResult>` child: elements with a
`new_id` are mapped to it, deleted elements are mapped to their own
`old_id`. -/
def applyResultElem (m : IdMapData) (e : DiffResultElem) : IdMapData :=
  match e.new_id with
  | some nid => fun t o => if t = e.tag ∧ o = e.old_id then some nid else m t o
  | none => fun t o => if t = e.tag ∧ o = e.old_id then some e.old_id else m t o

/-- `DiffSet.processResult`: fold the assignments of all `<diffResult>`
children over the id map. -/
def processResult (m : IdMapData) (content : List DiffResultElem) : IdMapData :=
  content.foldl applyResultElem m

/-- The explicitly threaded interpreter state: the network request log,
the shared `IdMap` contents, the server's changeset id counter and its
per-upload diff results (`oracle`), and two ghost logs (records stamped
with a changeset id; records submitted to `addToChangeset`). -/
structure MState where
  events : List NetEvent
  idMap : IdMapData
  nextCsId : Nat
  oracle : Nat → List DiffResultElem
  uploadCount : Nat
  stampedLog : List XElem
  submittedLog : List (String × String)

/-- Initial state: no requests issued, a given initial id map (loaded
from disk), and a given server behaviour. -/
def MState.init (m0 : IdMapData) (oracle : Nat → List DiffResultElem) : MState :=
  { events := [], idMap := m0, nextCsId := 1, oracle := oracle,
    uploadCount := 0, stampedLog := [], submittedLog := [] }

/-- The `DiffSet` class: the three payload element lists (`self.elems`),
the item count and the closed flag. -/
structure DiffSet where
  elems_create : List XElem
  elems_modify : List XElem
  elems_delete : List XElem
  itemcount : Nat
  closed : Bool
deriving DecidableEq, Repr

/-- `DiffSet.__init__`: fresh empty payload lists, count 0, open. -/
def DiffSet.new : DiffSet :=
  { elems_create := [], elems_modify := [], elems_delete := [],
    itemcount := 0, closed := false }

/-- `DiffSet.__getitem__` / `self.elems[action]`: the payload list for an
action key, `none` meaning the dict lookup raises `KeyError`. -/
def DiffSet.getElems (d : DiffSet) (action : String) : Option (List XElem) :=
  if action = "create" then some d.elems_create
  else if action = "modify" then some d.elems_modify
  else if action = "delete" then some d.elems_delete
  else none

/-- Store back the payload list selected by `action` (the effect of
`self[action].append(item)` on the selected list). -/
def DiffSet.setElems (d : DiffSet) (action : String) (l : List XElem) : DiffSet :=
  if action = "create" then { d with elems_create := l }
  else if action = "modify" then { d with elems_modify := l }
  else { d with elems_delete := l }

/-- `DiffSet.getItemLimit`: the self-imposed 1000-item upload chunk. -/
def DiffSet.getItemLimit (_ : DiffSet) : Nat := 1000

/-- `DiffSet.upload`: a no-op returning `False` when empty or already
closed; otherwise issues the upload request carrying the three payload
lists, processes the server's diff result into the id map, and closes
the diff set.  (`id_map.save()` is a file-system effect, modelled
separately by `IdMap.save` below.)  `csid` is `self.changeset.id`;
Python would render a missing id as the string `None`. -/
def DiffSet.upload (d : DiffSet) (csid : Option String) (s : MState) :
    DiffSet × MState :=
  if d.itemcount = 0 ∨ d.closed then (d, s)
  else
    let ev := NetEvent.diffUpload (csid.getD "None")
        d.elems_create d.elems_modify d.elems_delete
    let content := s.oracle s.uploadCount
    ({ d with closed := true },
     { s with events := s.events ++ [ev],
              idMap := processResult s.idMap content,
              uploadCount := s.uploadCount + 1 })

/-- `DiffSet.addChange`: raise `DiffSetClosed` when closed; look up the
payload list by `action` (`KeyError` when the key is absent); append the
item; bump the count; upload when the count reaches the limit. -/
def DiffSet.addChange (d : DiffSet) (csid : Option String) (s : MState)
    (action : String) (item : XElem) : Except PyErr DiffSet × MState :=
  if d.closed then (.error .diffSetClosed, s)
  else
    match d.getElems action with
    | none => (.error (.keyError action), s)
    | some l =>
      let d := d.setElems action (l ++ [item])
      let d := { d with itemcount := d.itemcount + 1 }
      if d.itemcount ≥ d.getItemLimit then
        let (d, s) := d.upload csid s
        (.ok d, s)
      else (.ok d, s)

/-- The `Changeset` class: server id, tag metadata, the open/closed
flags, the running item count and the current diff set. -/
structure Changeset where
  id : Option String
  tags : List (String × String)
  opened : Bool
  closed : Bool
  itemcount : Nat
  currentDiffSet : DiffSet

/-- `Changeset.__init__`: unopened, unclosed, count 0, with a fresh
diff set (`createDiffSet`). -/
def Changeset.new (tags : List (String × String)) : Changeset :=
  { id := none, tags := tags, opened := false, closed := false,
    itemcount := 0, currentDiffSet := DiffSet.new }

/-- `Changeset.open`: issue the changeset-creation request, record the
server-assigned id, mark opened. -/
def Changeset.openCs (c : Changeset) (s : MState) : Changeset × MState :=
  let cid := toString s.nextCsId
  ({ c with id := some cid, opened := true },
   { s with events := s.events ++ [NetEvent.changesetCreate cid],
            nextCsId := s.nextCsId + 1 })

/-- `Changeset.getItemLimit`: the 50000-edit changeset bound. -/
def Changeset.getItemLimit (_ : Changeset) : Nat := 50000

/-- `Changeset.close`: a no-op when never opened; otherwise upload any
remaining diff set contents, issue the close request, mark closed. -/
def Changeset.close (c : Changeset) (s : MState) : Changeset × MState :=
  if ¬ c.opened then (c, s)
  else
    let (d, s) := c.currentDiffSet.upload c.id s
    let s := { s with events :=
        s.events ++ [NetEvent.changesetClose (c.id.getD "None")] }
    ({ c with currentDiffSet := d, closed := true }, s)

/-- The tail of `Changeset.addChange` after the item went into a diff
set: bump `self.itemcount` and, at the limit, upload the current diff
set and close the changeset. -/
def Changeset.afterAdd (c : Changeset) (s : MState) :
    Except PyErr Changeset × MState :=
  let c := { c with itemcount := c.itemcount + 1 }
  if c.itemcount ≥ c.getItemLimit then
    let (d, s) := c.currentDiffSet.upload c.id s
    let c := { c with currentDiffSet := d }
    let (c, s) := c.close s
    (.ok c, s)
  else (.ok c, s)

/-- `Changeset.addChange`: open lazily on first use; raise
`ChangesetClosed` when closed; stamp the item with the changeset id;
forward to the current diff set, catching `DiffSetClosed` once by
rotating to a fresh diff set (`createDiffSet`) and retrying the same
add; then run the count/limit tail. -/
def Changeset.addChange (c : Changeset) (s : MState) (action : String)
    (item : XElem) : Except PyErr Changeset × MState :=
  let (c, s) := if ¬ c.opened then c.openCs s else (c, s)
  if c.closed then (.error .changesetClosed, s)
  else
    let item := { item with changesetAttr := c.id }
    let s := { s with stampedLog := s.stampedLog ++ [item] }
    match c.currentDiffSet.addChange c.id s action item with
    | (.error .diffSetClosed, s) =>
      match DiffSet.new.addChange c.id s action item with
      | (.error e, s) => (.error e, s)
      | (.ok d, s) => Changeset.afterAdd { c with currentDiffSet := d } s
    | (.error e, s) => (.error e, s)
    | (.ok d, s) => Changeset.afterAdd { c with currentDiffSet := d } s

/-- The `ImportProcessor` state the claims need: the current changeset
and its tag metadata.  `pastChangesets` is a ghost history of the
changesets replaced by `createChangeset`, kept for specification only. -/
structure ImportProcessor where
  current_changeset : Changeset
  tags : List (String × String)
  pastChangesets : List Changeset

/-- `ImportProcessor.__init__` (its `createChangeset` call): start with
one fresh changeset. -/
def ImportProcessor.new (tags : List (String × String)) : ImportProcessor :=
  { current_changeset := Changeset.new tags, tags := tags,
    pastChangesets := [] }

/-- `ImportProcessor.createChangeset`: replace the current changeset
with a fresh one (the replaced one is recorded in the ghost history). -/
def ImportProcessor.createChangeset (p : ImportProcessor) : ImportProcessor :=
  { p with current_changeset := Changeset.new p.tags,
           pastChangesets := p.pastChangesets ++ [p.current_changeset] }

/-- `ImportProcessor.addToChangeset`: read the element's `action`
attribute (default `create`), add it to the current changeset, catching
`ChangesetClosed` once by creating a fresh changeset and retrying the
same add.  The ghost `submittedLog` records every element submitted. -/
def ImportProcessor.addToChangeset (p : ImportProcessor) (s : MState)
    (elem : XElem) : Except PyErr ImportProcessor × MState :=
  let action := elem.action.getD "create"
  let s := { s with submittedLog := s.submittedLog ++ [(elem.tag, elem.id)] }
  match p.current_changeset.addChange s action elem with
  | (.error .changesetClosed, s) =>
    let p := p.createChangeset
    (match p.current_changeset.addChange s action elem with
     | (.error e, s) => (.error e, s)
     | (.ok c, s) => (.ok { p with current_changeset := c }, s))
  | (.error e, s) => (.error e, s)
  | (.ok c, s) => (.ok { p with current_changeset := c }, s)

/-- Fold a list of records through `Changeset.addChange`, stopping at
the first uncaught exception (each record's action read as in
`addToChangeset`). -/
def csAddAll : Changeset → MState → List XElem →
    Except PyErr Changeset × MState
  | c, s, [] => (.ok c, s)
  | c, s, e :: es =>
    match c.addChange s (e.action.getD "create") e with
    | (.ok c, s) => csAddAll c s es
    | (.error err, s) => (.error err, s)

/-- Fold a list of records through `ImportProcessor.addToChangeset`,
stopping at the first uncaught exception. -/
def procAddAll : ImportProcessor → MState → List XElem →
    Except PyErr ImportProcessor × MState
  | p, s, [] => (.ok p, s)
  | p, s, e :: es =>
    match p.addToChangeset s e with
    | (.ok p, s) => procAddAll p s es
    | (.error err, s) => (.error err, s)

/-!
## `IdMap.save` / `IdMap.load` (file-system model, for the persistence
claim)

`IdMap.save` runs, in order:
  1. write the pickled map to `filename + ".tmp"`;
  2. `os.remove(filename)` (ignoring a missing-file error);
  3. `os.rename(filename + ".tmp", filename)`.
The file system is modelled as the optional contents of the two
involved paths.  A crash can happen between any two steps; `saveUpTo k`
is the file system after the first `k` steps. -/
structure FileSys where
  target : Option IdMapData
  tmp : Option IdMapData

/-- Step 1 of `IdMap.save`: create/overwrite the `.tmp` file with the
pickled map. -/
def FileSys.writeTmp (fs : FileSys) (m : IdMapData) : FileSys :=
  { fs with tmp := some m }

/-- Step 2 of `IdMap.save`: `os.remove(self.filename)`; a missing
target (`os.error`) is swallowed. -/
def FileSys.removeTarget (fs : FileSys) : FileSys :=
  { fs with target := none }

/-- Step 3 of `IdMap.save`: `os.rename(tmp, filename)`. -/
def FileSys.renameTmp (fs : FileSys) : FileSys :=
  { target := fs.tmp, tmp := none }

/-- The file system after the first `k` of the three steps of
`IdMap.save` (so `saveUpTo fs m 3` is a completed save and smaller `k`
are crash points). -/
def FileSys.saveUpTo (fs : FileSys) (m : IdMapData) : Nat → FileSys
  | 0 => fs
  | 1 => fs.writeTmp m
  | 2 => (fs.writeTmp m).removeTarget
  | _ => ((fs.writeTmp m).removeTarget).renameTmp

/-- `IdMap.load` as run by a fresh process: `os.stat`/`open`/`unpickle`
the target file, and on any failure (`except: pass`) keep the current
`id_map` — which for a fresh `IdMap` instance is the empty class
default. -/
def FileSys.load (fs : FileSys) (current : IdMapData) : IdMapData :=
  match fs.target with
  | some m => m
  | none => current

/-!
## The vendored digraph library (`graph/graph.py`)

Nodes are the strings used by `bulk_upload.py`.  The dicts
`node_neighbors` and `node_incidence` become total functions (with the
node list recording dict key insertion order); a dict lookup of an
absent node, which raises `KeyError` in Python, is modelled by the
`Option` result of the operation performing it.  The unused
`edge_properties` / attribute dicts are omitted. -/
structure Pygraph where
  nodesList : List String
  node_neighbors : String → List String
  node_incidence : String → List String

/-- `digraph.__init__`: empty node set. -/
def Pygraph.empty : Pygraph :=
  { nodesList := [], node_neighbors := fun _ => [], node_incidence := fun _ => [] }

/-- `digraph.add_node`: raise `AdditionError` (here `none`) for a
duplicate, otherwise register the node with empty neighbor and
incidence lists. -/
def Pygraph.add_node (g : Pygraph) (n : String) : Option Pygraph :=
  if n ∈ g.nodesList then none
  else some
    { nodesList := g.nodesList ++ [n],
      node_neighbors := fun x => if x = n then [] else g.node_neighbors x,
      node_incidence := fun x => if x = n then [] else g.node_incidence x }

/-- `digraph.add_nodes`: add each node of the list in order. -/
def Pygraph.add_nodes (g : Pygraph) : List String → Option Pygraph
  | [] => some g
  | n :: rest =>
    match g.add_node n with
    | none => none
    | some g => g.add_nodes rest

/-- `digraph.add_edge(u, v)`: a no-op when `v` is already a neighbor of
`u`; otherwise append `v` to `node_neighbors[u]` and `u` to
`node_incidence[v]`.  A lookup of a node that was never added raises
`KeyError` (`none`). -/
def Pygraph.add_edge (g : Pygraph) (u v : String) : Option Pygraph :=
  if u ∉ g.nodesList then none
  else if v ∈ g.node_neighbors u then some g
  else if v ∉ g.nodesList then none
  else some
    { g with
      node_neighbors := fun x =>
        if x = u then g.node_neighbors u ++ [v] else g.node_neighbors x,
      node_incidence := fun x =>
        if x = v then g.node_incidence x ++ [u] else g.node_incidence x }

mutual

/-- `digraph._dfs`: mark the node visited, yield it first when
pre-ordering, explore the unvisited neighbors in list order, yield it
last when post-ordering.  Python's call-stack recursion is bounded here
by a fuel argument; `Pygraph.traversal` supplies fuel that is proved
sufficient (`dfs_not_fuelbound`) for the graphs the claims run it on.
Returns the yielded output and the visited list. -/
def Pygraph.dfsVisit (g : Pygraph) (pre post : Bool) :
    Nat → List String → String → List String × List String
  | 0, visited, _ => ([], visited)
  | fuel+1, visited, node =>
    let visited := visited ++ [node]
    let r := g.dfsChildren pre post fuel (g.node_neighbors node) visited
    ((if pre then [node] else []) ++ r.1 ++ (if post then [node] else []), r.2)
termination_by fuel _ _ => (fuel, 0)

/-- The neighbor loop of `digraph._dfs`: explore each not-yet-visited
neighbor recursively, threading the visited list left to right. -/
def Pygraph.dfsChildren (g : Pygraph) (pre post : Bool) :
    Nat → List String → List String → List String × List String
  | _, [], visited => ([], visited)
  | fuel, x :: xs, visited =>
    if x ∈ visited then g.dfsChildren pre post fuel xs visited
    else
      let r1 := g.dfsVisit pre post fuel visited x
      let r2 := g.dfsChildren pre post fuel xs r1.2
      (r1.1 ++ r2.1, r2.2)
termination_by fuel xs _ => (fuel, xs.length + 1)

end

/-- `digraph.traversal(node, order)` for `order` in `pre`/`post`,
consumed into a list. -/
def Pygraph.traversal (g : Pygraph) (node : String) (ord : String) :
    List String :=
  (g.dfsVisit (ord = "pre") (ord = "post") (g.nodesList.length + 1) [] node).1

/-!
## `ImportProcessor.parse`

The input `.osm` document: its root tag and the flat list of its
elements (OSM files are flat below the root; `osmRoot.iter(tag)` is
iteration over the elements with that tag, and the `<nd>`/`<member>`
children live inside their `XElem`). -/
structure OsmDoc where
  rootTag : String
  elems : List XElem
deriving DecidableEq, Repr

/-- The `<nd>` loop inside the way branch of `parse`: count the `<nd>`
children, raise past 2000, and rewrite each present `ref` that is
already mapped in the node id map.  (The source consults the global
`id_map` here; when run as a script that is the same object as
`self.id_map`, which is what is passed in.) -/
def processNds (m : IdMapData) (wayId : String) :
    Nat → List (Option String) → Except PyErr (List (Option String))
  | _, [] => .ok []
  | count, c :: cs =>
    let count := count + 1
    if count > 2000 then
      .error (.xmlException ("node count >= 2000 in " ++ wayId))
    else
      let c' := match c with
        | some r =>
          match m "node" r with
          | some nid => some nid
          | none => some r
        | none => none
      match processNds m wayId count cs with
      | .error e => .error e
      | .ok rest => .ok (c' :: rest)

/-- `ImportProcessor.updateRelationMemberIds`: rewrite each member `ref`
that is already mapped under the member's own `type`.  (The id map is
total here, so the `KeyError` Python would raise for a member whose
`type` is not `node`/`way`/`relation` is not modelled.) -/
def updateRelationMemberIds (m : IdMapData) (e : XElem) : XElem :=
  { e with members := e.members.map (fun mem =>
      match mem.ref with
      | none => mem
      | some r =>
        match m mem.mtype r with
        | some nid => { mem with ref := some nid }
        | none => mem) }

/-- The `for elem in osmRoot.iter(type)` loop of `parse` for `node` and
`way`: skip elements whose id is already mapped, run the `<nd>`
processing for ways, and submit the element. -/
def parseNWLoop (ty : String) :
    List XElem → ImportProcessor → MState →
    Except PyErr ImportProcessor × MState
  | [], p, s => (.ok p, s)
  | e :: es, p, s =>
    if e.tag ≠ ty then parseNWLoop ty es p s
    else if (s.idMap ty e.id).isSome then parseNWLoop ty es p s
    else
      match
        (if e.tag = "way" then
          match processNds s.idMap e.id 0 e.nds with
          | .error err => (.error err : Except PyErr XElem)
          | .ok nds => .ok { e with nds := nds }
        else .ok e) with
      | .error err => (.error err, s)
      | .ok e =>
        match p.addToChangeset s e with
        | (.ok p, s) => parseNWLoop ty es p s
        | (.error err, s) => (.error err, s)

/-- The relation loop of `parse` when no relation references another
relation: process relations in document order, skipping mapped ids. -/
def parseRelLoopPlain :
    List XElem → ImportProcessor → MState →
    Except PyErr ImportProcessor × MState
  | [], p, s => (.ok p, s)
  | e :: es, p, s =>
    if e.tag ≠ "relation" then parseRelLoopPlain es p s
    else if (s.idMap "relation" e.id).isSome then parseRelLoopPlain es p s
    else
      match p.addToChangeset s (updateRelationMemberIds s.idMap e) with
      | (.ok p, s) => parseRelLoopPlain es p s
      | (.error err, s) => (.error err, s)

/-- One assignment `relationStore[elem.attrib[id]] = elem` into the
insertion-ordered dict. -/
def storeInsert (st : List (String × XElem)) (k : String) (v : XElem) :
    List (String × XElem) :=
  if st.any (fun kv => kv.1 = k) then
    st.map (fun kv => if kv.1 = k then (k, v) else kv)
  else st ++ [(k, v)]

/-- The `relationStore` dict accumulated by the relation loop when
`relationSort` is on: every `<relation>` element, keyed by id, mapped
ids included. -/
def relationStoreOf (elems : List XElem) : List (String × XElem) :=
  (elems.filter (fun e => e.tag = "relation")).foldl
    (fun st e => storeInsert st e.id e) []

/-- `relationStore[rid]` lookup. -/
def storeGet (st : List (String × XElem)) (rid : String) : Option XElem :=
  (st.find? (fun kv => kv.1 = rid)).map (fun kv => kv.2)

/-- The inner member loop building graph edges for one stored relation:
an edge `id → ref` for every member of type `relation`.  A member
without a `ref` attribute makes Python's `child.attrib[ref]` raise
`KeyError` (`none`), as does `add_edge` on an unknown node. -/
def addMemberEdges (g : Pygraph) (rid : String) :
    List Member → Option Pygraph
  | [] => some g
  | mem :: ms =>
    if mem.mtype = "relation" then
      match mem.ref with
      | none => none
      | some r =>
        match g.add_edge rid r with
        | none => none
        | some g => addMemberEdges g rid ms
    else addMemberEdges g rid ms

/-- The edge-building loop over the whole relation store. -/
def addAllEdges (g : Pygraph) :
    List (String × XElem) → Option Pygraph
  | [] => some g
  | (rid, e) :: rest =>
    match addMemberEdges g rid e.members with
    | none => none
    | some g => addAllEdges g rest

/-- The `node_incidence` iteration hooking every node without incoming
edges (including, vacuously, `root` itself) to the synthetic `root`
node, reading the incidence lists as they are being extended. -/
def attachRootLoop (g : Pygraph) : List String → Option Pygraph
  | [] => some g
  | x :: xs =>
    if (g.node_incidence x).isEmpty then
      match g.add_edge "root" x with
      | none => none
      | some g => attachRootLoop g xs
    else attachRootLoop g xs

/-- Graph construction of the `relationSort` branch of `parse`: all
store keys as nodes, an edge per relation-typed member, then the
synthetic `root` node hooked to every node without incoming edges.
`none` collapses the `AdditionError`/`KeyError` failure modes. -/
def buildRelGraph (st : List (String × XElem)) : Option Pygraph :=
  match Pygraph.empty.add_nodes (st.map Prod.fst) with
  | none => none
  | some g =>
    match addAllEdges g st with
    | none => none
    | some g =>
      match g.add_node "root" with
      | none => none
      | some g => attachRootLoop g g.nodesList

/-- The emission loop of the `relationSort` branch: walk the post-order
traversal, skip the `root` marker and every already-mapped relation,
rewrite member ids and submit. -/
def parseRelSortEmit (st : List (String × XElem)) :
    List String → ImportProcessor → MState →
    Except PyErr ImportProcessor × MState
  | [], p, s => (.ok p, s)
  | rid :: rest, p, s =>
    if rid = "root" then parseRelSortEmit st rest p s
    else
      match storeGet st rid with
      | none => (.error (.keyError rid), s)
      | some r =>
        if (s.idMap "relation" r.id).isSome then parseRelSortEmit st rest p s
        else
          match p.addToChangeset s (updateRelationMemberIds s.idMap r) with
          | (.ok p, s) => parseRelSortEmit st rest p s
          | (.error err, s) => (.error err, s)

/-- The dependency resolver of the claims: graph construction plus the
post-order traversal from `root`, with the `root` marker dropped from
the output (the emission loop's `continue`). -/
def resolverOrder (st : List (String × XElem)) : Option (List String) :=
  (buildRelGraph st).map (fun g =>
    (g.traversal "root" "post").filter (fun rid => rid ≠ "root"))

/-- `ImportProcessor.parse`: the document-kind checks, the node and way
loops, the relation processing (plain or dependency-sorted), and the
final `current_changeset.close()`. -/
def ImportProcessor.parse (p : ImportProcessor) (doc : OsmDoc) (s : MState) :
    Except PyErr ImportProcessor × MState :=
  if doc.rootTag ≠ "osm" then
    (.error (.xmlException "Input file must be a .osm XML file"), s)
  else if doc.elems.any (fun e =>
      e.tag = "add" ∨ e.tag = "delete" ∨ e.tag = "modify") then
    (.error (.xmlException "osmChange data in an osm file"), s)
  else
    let relationSort := doc.elems.any (fun e =>
      e.members.any (fun mem => mem.mtype = "relation"))
    match parseNWLoop "node" doc.elems p s with
    | (.error e, s) => (.error e, s)
    | (.ok p, s) =>
      match parseNWLoop "way" doc.elems p s with
      | (.error e, s) => (.error e, s)
      | (.ok p, s) =>
        match
          (if relationSort then
            let st := relationStoreOf doc.elems
            match buildRelGraph st with
            | none => (.error (.keyError "graph construction"), s)
            | some g => parseRelSortEmit st (g.traversal "root" "post") p s
          else parseRelLoopPlain doc.elems p s) with
        | (.error e, s) => (.error e, s)
        | (.ok p, s) =>
          let (c, s) := p.current_changeset.close s
          (.ok { p with current_changeset := c }, s)

/-!
## Specification-side definitions

Closed forms for the state of a run that has performed `k` adds of
homogeneous create records, used to settle the batch-boundary and
changeset-rollover claims; reachability in a `Pygraph`; and the concrete
inputs used by witnesses and counterexamples. -/

/-- A fresh create record (no `action` attribute, so `addToChangeset`
defaults to `create`). -/
def mkCreateElem (i : Nat) : XElem :=
  { tag := "node", id := toString i, action := none, changesetAttr := none,
    nds := [], members := [] }

/-- A server that answers every upload with an empty diff result. -/
def oracle0 : Nat → List DiffResultElem := fun _ => []

/-- The effect of `item.attrib[changeset] = self.id`. -/
def stampElem (cid : String) (e : XElem) : XElem :=
  { e with changesetAttr := some cid }

/-- The records `f lo, …, f (lo+len-1)`, each stamped with changeset id
`cid`. -/
def stampedChunk (cid : String) (f : Nat → XElem) (lo len : Nat) :
    List XElem :=
  (List.range' lo len).map (fun i => stampElem cid (f i))

/-- The id map after the first `u` uploads have had their diff results
processed. -/
def mAfter (m0 : IdMapData) (orc : Nat → List DiffResultElem) (u : Nat) :
    IdMapData :=
  (List.range u).foldl (fun m j => processResult m (orc j)) m0

/-- The current diff set of the first changeset after `k` adds of the
records `f 0, …, f (k-1)`: just-uploaded (closed, full) when `k` is a
positive multiple of 1000, otherwise open with the tail chunk. -/
def midDiffSet (f : Nat → XElem) (k : Nat) : DiffSet :=
  if k % 1000 = 0 ∧ k ≠ 0 then
    { elems_create := stampedChunk "1" f (k - 1000) 1000,
      elems_modify := [], elems_delete := [], itemcount := 1000,
      closed := true }
  else
    { elems_create := stampedChunk "1" f (1000 * (k / 1000)) (k % 1000),
      elems_modify := [], elems_delete := [], itemcount := k % 1000,
      closed := false }

/-- The first changeset after `k` adds (`k ≤ 50000`): opened with server
id `1`, closed exactly at the 50000-edit limit. -/
def midCs (tags : List (String × String)) (f : Nat → XElem) (k : Nat) :
    Changeset :=
  { id := some "1", tags := tags, opened := true,
    closed := decide (k = 50000), itemcount := k,
    currentDiffSet := midDiffSet f k }

/-- The network request log after `k` adds: the changeset creation, one
upload per completed 1000-record chunk, and the changeset close at the
50000-edit limit. -/
def midEvents (f : Nat → XElem) (k : Nat) : List NetEvent :=
  NetEvent.changesetCreate "1" ::
    (List.range (k / 1000)).map (fun j =>
      NetEvent.diffUpload "1" (stampedChunk "1" f (1000 * j) 1000) [] []) ++
    (if k = 50000 then [NetEvent.changesetClose "1"] else [])

/-- The threaded state after `k` adds, with an arbitrary ghost
`submittedLog` (which `Changeset.addChange` never touches). -/
def midState (m0 : IdMapData) (orc : Nat → List DiffResultElem)
    (sub : List (String × String)) (f : Nat → XElem) (k : Nat) : MState :=
  { events := midEvents f k, idMap := mAfter m0 orc (k / 1000),
    nextCsId := 2, oracle := orc, uploadCount := k / 1000,
    stampedLog := stampedChunk "1" f 0 k, submittedLog := sub }

/-- Reachability along `node_neighbors` edges. -/
inductive Reaches (g : Pygraph) : String → String → Prop
  | refl (a : String) : Reaches g a a
  | step {a b c : String} : b ∈ g.node_neighbors a → Reaches g b c →
      Reaches g a c

/-- A member referencing a relation. -/
def relMember (r : String) : Member := { mtype := "relation", ref := some r }

/-- A relation record referencing the given relations. -/
def mkRel (rid : String) (refs : List String) : XElem :=
  { tag := "relation", id := rid, action := none, changesetAttr := none,
    nds := [], members := refs.map relMember }

/-- The synthetic chain R1 → R2 → R3 of the dependency-ordering claim. -/
def chainRels : List XElem :=
  [mkRel "R1" ["R2"], mkRel "R2" ["R3"], mkRel "R3" []]

/-- A rank function witnessing that the chain's references are acyclic. -/
def chainRank : String → Nat :=
  fun rid => if rid = "R1" then 2 else if rid = "R2" then 1 else 0

/-- A store in which relation R2 is already mapped. -/
def mapWithR2 : IdMapData :=
  fun t o => if t = "relation" ∧ o = "R2" then some "900" else none

/-- The two-relation input (R1 references the already-mapped R2) of the
graph-exclusion counterexample. -/
def c9store : List (String × XElem) :=
  relationStoreOf [mkRel "R1" ["R2"], mkRel "R2" []]

/-- A plain node record. -/
def plainNode (i : String) : XElem :=
  { tag := "node", id := i, action := none, changesetAttr := none,
    nds := [], members := [] }

/-- A way with 2001 `<nd>` children (over the 2000 limit). -/
def bigWay : XElem :=
  { tag := "way", id := "W1", action := none, changesetAttr := none,
    nds := List.replicate 2001 none, members := [] }

/-- A document whose first processed record is a fresh node and whose
second is the oversized way: the node opens a changeset (a network
call) before the way's size check fires. -/
def c8doc : OsmDoc := { rootTag := "osm", elems := [plainNode "N1", bigWay] }

/-- A document carrying an osmChange-style `<modify>` marker. -/
def c8markerDoc : OsmDoc :=
  { rootTag := "osm",
    elems := [plainNode "N1",
      { tag := "modify", id := "M1", action := none, changesetAttr := none,
        nds := [], members := [] }] }

/-- An id map holding a single node mapping (old id 1 → new id 101). -/
def mapOne : IdMapData :=
  fun t o => if t = "node" ∧ o = "1" then some "101" else none

/-- An id map holding node 1 → 600 (a different value for the same key
as `mapOne`). -/
def mapOneOther : IdMapData :=
  fun t o => if t = "node" ∧ o = "1" then some "600" else none

/-- A record carrying an action attribute outside create/modify/delete. -/
def weirdActionElem : XElem :=
  { tag := "node", id := "N7", action := some "replace", changesetAttr := none,
    nds := [], members := [] }

/-- The two-node document (node 1 already mapped, node 2 fresh) of the
idempotent-resume witness. -/
def c4doc : OsmDoc := { rootTag := "osm", elems := [plainNode "1", plainNode "2"] }

/-- The ghost submission log produced by `k` submissions of `f 0, …,
f (k-1)`. -/
def subPrefix (f : Nat → XElem) (k : Nat) : List (String × String) :=
  (List.range k).map (fun i => ((f i).tag, (f i).id))

/-- Every neighbor list stays inside the node list. -/
def adjClosed (g : Pygraph) : Prop :=
  ∀ u v, v ∈ g.node_neighbors u → v ∈ g.nodesList

/-- A rank function strictly decreasing along every edge except the
synthetic `root` self-loop: the acyclicity witness for the graphs the
resolver is run on. -/
def rankOk (g : Pygraph) (rnk : String → Nat) : Prop :=
  ∀ u v, v ∈ g.node_neighbors u → ¬(u = "root" ∧ v = "root") → rnk v < rnk u

/-- The only edge into `root` is its own self-loop. -/
def intoRootOnly (g : Pygraph) : Prop :=
  ∀ u, "root" ∈ g.node_neighbors u → u = "root"

/-- The number of graph nodes not yet visited: the fuel measure of the
depth-first traversal. -/
def unvisited (g : Pygraph) (v : List String) : Nat :=
  (g.nodesList.filter (fun x => decide (x ∉ v))).length

/-- Domain growth between two id maps: every mapped key stays mapped
(the skip checks of `parse` only test key presence, and
`processResult` never deletes a key). -/
def DomLe (m m' : IdMapData) : Prop :=
  ∀ t o, (m t o).isSome → (m' t o).isSome

/-- The well-formedness the digraph operations preserve: neighbor and
incidence lists mirror each other, and every edge endpoint is a node. -/
def Pygraph.WF (g : Pygraph) : Prop :=
  (∀ u v, v ∈ g.node_neighbors u ↔ u ∈ g.node_incidence v) ∧
  (∀ u v, v ∈ g.node_neighbors u → u ∈ g.nodesList ∧ v ∈ g.nodesList)

/-- A reference `a → b` in the relation store: the record keyed `a` has
a relation-typed member whose `ref` is `b`. -/
def refEdge (st : List (String × XElem)) (a b : String) : Prop :=
  ∃ kv ∈ st, kv.1 = a ∧
    ∃ mem ∈ kv.2.members, mem.mtype = "relation" ∧ mem.ref = some b

/-- The invariants of one `_dfs` call in post-order mode: visited grows
by exactly the output, the output is fresh and duplicate-free, ends in
the call's node, stays reachable from it, has all its neighbors visited
on return, and respects the post-order placement of every outgoing
edge. -/
def VisitOK (g : Pygraph) (fuel : Nat) : Prop :=
  ∀ v n, n ∈ g.nodesList → n ∉ v → unvisited g v ≤ fuel →
    (∀ x, x ∈ (g.dfsVisit false true fuel v n).2 ↔
      x ∈ v ∨ x ∈ (g.dfsVisit false true fuel v n).1) ∧
    (∀ x ∈ (g.dfsVisit false true fuel v n).1, x ∉ v) ∧
    (g.dfsVisit false true fuel v n).1.Nodup ∧
    (∃ pre, (g.dfsVisit false true fuel v n).1 = pre ++ [n]) ∧
    (∀ a ∈ (g.dfsVisit false true fuel v n).1, Reaches g n a) ∧
    (∀ a ∈ (g.dfsVisit false true fuel v n).1,
      ∀ b ∈ g.node_neighbors a, b ∈ (g.dfsVisit false true fuel v n).2) ∧
    (∀ a ∈ (g.dfsVisit false true fuel v n).1,
      ∀ b ∈ g.node_neighbors a,
        b ∈ v ∨ [b, a].Sublist (g.dfsVisit false true fuel v n).1 ∨
          (a = "root" ∧ b = "root"))

/-- The invariants of the neighbor loop of `_dfs`, post-order mode. -/
def ChildrenOK (g : Pygraph) (fuel : Nat) : Prop :=
  ∀ xs v, (∀ x ∈ xs, x ∈ g.nodesList) → unvisited g v ≤ fuel →
    (∀ x, x ∈ (g.dfsChildren false true fuel xs v).2 ↔
      x ∈ v ∨ x ∈ (g.dfsChildren false true fuel xs v).1) ∧
    (∀ x ∈ (g.dfsChildren false true fuel xs v).1, x ∉ v) ∧
    (g.dfsChildren false true fuel xs v).1.Nodup ∧
    (∀ x ∈ xs, x ∈ v ∨ x ∈ (g.dfsChildren false true fuel xs v).1) ∧
    (∀ a ∈ (g.dfsChildren false true fuel xs v).1,
      ∃ x, x ∈ xs ∧ x ∉ v ∧ Reaches g x a) ∧
    (∀ a ∈ (g.dfsChildren false true fuel xs v).1,
      ∀ b ∈ g.node_neighbors a, b ∈ (g.dfsChildren false true fuel xs v).2) ∧
    (∀ a ∈ (g.dfsChildren false true fuel xs v).1,
      ∀ b ∈ g.node_neighbors a,
        b ∈ v ∨ [b, a].Sublist (g.dfsChildren false true fuel xs v).1 ∨
          (a = "root" ∧ b = "root"))

/-- The largest rank of a store key. -/
def keyMax (st : List (String × XElem)) (rnk : String → Nat) : Nat :=
  ((st.map Prod.fst).map rnk).foldr max 0

/-- A store rank function extended to the synthetic `root` node, which
sits above every key. -/
def rootRank (st : List (String × XElem)) (rnk : String → Nat) :
    String → Nat :=
  fun x => if x = "root" then keyMax st rnk + 1 else rnk x

/-!
## Theorems
-/

/-- The state after the fresh node N1 of the counterexample document
has been processed: one changeset opened server-side. -/
def c8procAfterNode : ImportProcessor :=
  { current_changeset :=
      { id := some "1", tags := [], opened := true, closed := false,
        itemcount := 1,
        currentDiffSet :=
          { elems_create := [{ plainNode "N1" with changesetAttr := some "1" }],
            elems_modify := [], elems_delete := [], itemcount := 1,
            closed := false } },
    tags := [], pastChangesets := [] }

/-- The threaded state after the fresh node N1 has been processed. -/
def c8stateAfterNode : MState :=
  { events := [NetEvent.changesetCreate "1"], idMap := IdMapData.empty,
    nextCsId := 2, oracle := oracle0, uploadCount := 0,
    stampedLog := [{ plainNode "N1" with changesetAttr := some "1" }],
    submittedLog := [("node", "N1")] }

/-- Predicate: a logged network event is a changeset-close request. -/
def NetEvent.isChangesetClose : NetEvent → Bool
  | .changesetClose _ => true
  | _ => false

/-- Predicate: a logged network event is a changeset-creation request. -/
def NetEvent.isChangesetCreate : NetEvent → Bool
  | .changesetCreate _ => true
  | _ => false

/-- **C5, counterexample.**  `IdMap.save` removes the target file before
the rename, so a process killed between the remove and the rename (two
completed steps of the save) leaves no durable store at all: a fresh
process's `load` then yields the empty class default, which is neither
the previously persisted mapping (node 1 → 101) nor the mapping being
persisted (node 1 → 600). -/
theorem C5_counterexample :
    (FileSys.saveUpTo ⟨some mapOne, none⟩ mapOneOther 2).target = none ∧
    FileSys.load (FileSys.saveUpTo ⟨some mapOne, none⟩ mapOneOther 2)
      IdMapData.empty "node" "1" = none ∧
    mapOne "node" "1" = some "101" ∧
    mapOneOther "node" "1" = some "600" :=
  ⟨rfl, rfl, rfl, rfl⟩

/-- **C5, amended.**  `persist()` writes the mapping to a temporary
file, then *deletes* the target, then renames the temporary file over
the target.  A crash before the delete leaves the previously persisted
file present and unchanged; a crash between the delete and the rename
leaves no durable store, so a subsequent `load()` of a fresh process
yields the empty default mapping (neither old nor new); after the
rename, `load()` yields exactly the persisted mapping. -/
theorem C5_save_characterization (old : Option IdMapData) (tmp0 : Option IdMapData)
    (m dflt : IdMapData) :
    (FileSys.saveUpTo ⟨old, tmp0⟩ m 0).target = old ∧
    (FileSys.saveUpTo ⟨old, tmp0⟩ m 1).target = old ∧
    (FileSys.saveUpTo ⟨old, tmp0⟩ m 2).target = none ∧
    FileSys.load (FileSys.saveUpTo ⟨old, tmp0⟩ m 2) dflt = dflt ∧
    (FileSys.saveUpTo ⟨old, tmp0⟩ m 3).target = some m ∧
    FileSys.load (FileSys.saveUpTo ⟨old, tmp0⟩ m 3) dflt = m :=
  ⟨rfl, rfl, rfl, rfl, rfl, rfl⟩

/-- **C6, counterexample.**  `DiffSet.processResult` records a mapping
by plain dict assignment: recording new id 600 for node 1, which is
already mapped to 101, silently replaces the stored value instead of
failing with a conflict error (no such error exists in the code). -/
theorem C6_counterexample :
    mapOne "node" "1" = some "101" ∧
    applyResultElem mapOne ⟨"node", "1", some "600"⟩ "node" "1" = some "600" :=
  ⟨rfl, rfl⟩

/-- **C6, amended.**  Recording a result into the id map is an
unconditional assignment: re-recording the value already stored leaves
the map pointwise unchanged, and recording a different value silently
overwrites the stored one — no `ConflictError` is raised (none exists). -/
theorem C6_record_assigns (m : IdMapData) (t o v : String)
    (h : m t o = some v) :
    (∀ t2 o2, applyResultElem m ⟨t, o, some v⟩ t2 o2 = m t2 o2) ∧
    (∀ w, applyResultElem m ⟨t, o, some w⟩ t o = some w) := by
  constructor
  · intro t2 o2
    by_cases ht : t2 = t ∧ o2 = o
    · obtain ⟨h1, h2⟩ := ht
      subst h1; subst h2
      simp [applyResultElem, h]
    · simp [applyResultElem, ht]
  · intro w
    simp [applyResultElem]

/-- Witness for `C6_record_assigns` at the concrete map holding
node 1 → 101. -/
theorem C6_record_assigns_witness :
    mapOne "node" "1" = some "101" ∧
    ((∀ t2 o2, applyResultElem mapOne ⟨"node", "1", some "101"⟩ t2 o2 = mapOne t2 o2) ∧
     (∀ w, applyResultElem mapOne ⟨"node", "1", some w⟩ "node" "1" = some w)) :=
  ⟨rfl, C6_record_assigns mapOne "node" "1" "101" rfl⟩

/-- **C10.**  Submitting a record whose `action` attribute is outside
create/modify/delete through a fresh processor raises an uncaught
`KeyError` from the diff set's action-keyed dict lookup — after the
changeset has already been opened server-side (one network request) and
the record has been stamped with the changeset id — instead of a
defined input error raised before any network activity. -/
theorem C10_keyerror_after_open (tags : List (String × String))
    (m0 : IdMapData) (orc : Nat → List DiffResultElem) (e : XElem) (a : String)
    (ha : e.action = some a)
    (hbad : a ≠ "create" ∧ a ≠ "modify" ∧ a ≠ "delete") :
    ∃ s', (ImportProcessor.new tags).addToChangeset (MState.init m0 orc) e
        = (.error (.keyError a), s') ∧
      s'.events = [NetEvent.changesetCreate "1"] ∧
      s'.stampedLog = [{ e with changesetAttr := some "1" }] := by
  obtain ⟨h1, h2, h3⟩ := hbad
  refine ⟨{ events := [NetEvent.changesetCreate "1"], idMap := m0, nextCsId := 2,
            oracle := orc, uploadCount := 0,
            stampedLog := [{ e with changesetAttr := some "1" }],
            submittedLog := [(e.tag, e.id)] }, ?_, rfl, rfl⟩
  have htos : toString 1 = "1" := rfl
  simp [ImportProcessor.addToChangeset, ImportProcessor.new, Changeset.new,
    Changeset.addChange, Changeset.openCs, MState.init, DiffSet.addChange,
    DiffSet.new, DiffSet.getElems, ha, h1, h2, h3, htos]

/-- `Changeset.afterAdd` always succeeds. -/
theorem afterAdd_ok (c : Changeset) (s : MState) :
    ∃ c' s', Changeset.afterAdd c s = (.ok c', s') := by
  unfold Changeset.afterAdd
  dsimp only
  split
  · exact ⟨_, _, rfl⟩
  · exact ⟨_, _, rfl⟩

/-- `DiffSet.addChange` on an open diff set with a valid action never
raises. -/
theorem diffSet_addChange_ok (d : DiffSet) (csid : Option String)
    (s : MState) (a : String) (item : XElem) (hd : d.closed = false)
    (hv : a = "create" ∨ a = "modify" ∨ a = "delete") :
    ∃ d' s', d.addChange csid s a item = (.ok d', s') := by
  unfold DiffSet.addChange
  rw [hd]
  rcases hv with h | h | h <;> subst h <;>
    simp [DiffSet.getElems] <;> split <;> exact ⟨_, _, rfl⟩

/-- `DiffSet.addChange` on a fresh diff set with a valid action accepts
the item into the selected list. -/
theorem diffSet_new_addChange (csid : Option String) (s : MState)
    (a : String) (item : XElem)
    (hv : a = "create" ∨ a = "modify" ∨ a = "delete") :
    ∃ d', DiffSet.new.addChange csid s a item = (.ok d', s) ∧
      d'.itemcount = 1 ∧ d'.closed = false ∧ d'.getElems a = some [item] := by
  rcases hv with h | h | h <;> subst h <;>
    exact ⟨_, rfl, rfl, rfl, rfl⟩

/-- `Changeset.addChange` on a closed changeset raises `ChangesetClosed`
(after the lazy open, had the changeset somehow never been opened). -/
theorem changeset_addChange_closed (c : Changeset) (s : MState)
    (a : String) (item : XElem) (hc : c.closed = true) :
    ∃ s₂, c.addChange s a item = (.error .changesetClosed, s₂) := by
  unfold Changeset.addChange
  by_cases ho : c.opened = true
  · simp [ho, hc]
  · simp [ho, Changeset.openCs, hc]

/-- `DiffSet.addChange` on a closed diff set raises `DiffSetClosed` and
changes nothing. -/
theorem diffSet_addChange_closed (d : DiffSet) (csid : Option String)
    (s : MState) (a : String) (item : XElem) (hd : d.closed = true) :
    d.addChange csid s a item = (.error .diffSetClosed, s) := by
  unfold DiffSet.addChange
  rw [hd]
  simp

/-- The body of `Changeset.addChange` on an already-open, not-closed
changeset with a valid action always accepts the item. -/
theorem changeset_addChange_open_ok (c : Changeset) (s : MState) (a : String)
    (item : XElem) (ho : c.opened = true) (hc : c.closed = false)
    (hv : a = "create" ∨ a = "modify" ∨ a = "delete") :
    ∃ c' s', c.addChange s a item = (.ok c', s') := by
  unfold Changeset.addChange
  simp only [ho, not_true_eq_false, if_false, ite_false, hc, reduceIte]
  by_cases hd : c.currentDiffSet.closed = true
  · obtain ⟨d', hd', -, -, -⟩ := diffSet_new_addChange c.id
      { s with stampedLog := s.stampedLog ++ [{ item with changesetAttr := c.id }] }
      a { item with changesetAttr := c.id } hv
    simp only [diffSet_addChange_closed _ _ _ _ _ hd, hd']
    exact afterAdd_ok _ _
  · obtain ⟨d', s'', h2⟩ := diffSet_addChange_ok c.currentDiffSet c.id
      { s with stampedLog := s.stampedLog ++ [{ item with changesetAttr := c.id }] }
      a { item with changesetAttr := c.id } (by simpa using hd) hv
    simp only [h2]
    exact afterAdd_ok _ _

/-- `DiffSet.upload` never touches the payload lists or the item count:
it only issues the request and closes the diff set. -/
theorem upload_preserves (d : DiffSet) (csid : Option String) (s : MState)
    (a : String) :
    (d.upload csid s).1.getElems a = d.getElems a ∧
    (d.upload csid s).1.itemcount = d.itemcount := by
  unfold DiffSet.upload
  split
  · exact ⟨rfl, rfl⟩
  · exact ⟨rfl, rfl⟩

/-- One add on a freshly created changeset: it opens (one creation
request), stamps the item with the fresh server id and accepts it as
the single item of a fresh diff set. -/
theorem changeset_new_addChange (tags : List (String × String)) (s : MState)
    (a : String) (item : XElem)
    (hv : a = "create" ∨ a = "modify" ∨ a = "delete") :
    ∃ c', (Changeset.new tags).addChange s a item =
        (.ok c',
          { s with
            events := s.events ++ [NetEvent.changesetCreate (toString s.nextCsId)],
            nextCsId := s.nextCsId + 1,
            stampedLog := s.stampedLog ++
              [{ item with changesetAttr := some (toString s.nextCsId) }] }) ∧
      c'.id = some (toString s.nextCsId) ∧ c'.itemcount = 1 ∧
      c'.closed = false ∧ c'.currentDiffSet.itemcount = 1 ∧
      c'.currentDiffSet.closed = false ∧
      c'.currentDiffSet.getElems a =
        some [{ item with changesetAttr := some (toString s.nextCsId) }] := by
  rcases hv with h | h | h <;> subst h <;>
    exact ⟨_, rfl, rfl, rfl, rfl, rfl, rfl, rfl⟩

/-- `Changeset.addChange` with a valid action on a not-closed changeset
never raises. -/
theorem changeset_addChange_ok (c : Changeset) (s : MState) (a : String)
    (item : XElem) (hc : c.closed = false)
    (hv : a = "create" ∨ a = "modify" ∨ a = "delete") :
    ∃ c' s', c.addChange s a item = (.ok c', s') := by
  by_cases ho : c.opened = true
  · exact changeset_addChange_open_ok c s a item ho hc hv
  · have hsplit : c.addChange s a item =
        (c.openCs s).1.addChange (c.openCs s).2 a item := by
      conv_lhs => unfold Changeset.addChange
      conv_rhs => unfold Changeset.addChange
      simp [ho, Changeset.openCs]
    rw [hsplit]
    exact changeset_addChange_open_ok _ _ a item (by simp [Changeset.openCs])
      (by simp [Changeset.openCs, hc]) hv

/-- `Changeset.close` keeps the payload and count of the current diff
set (upload only marks it closed). -/
theorem close_preserves (c : Changeset) (s : MState) (a : String) :
    (c.close s).1.currentDiffSet.getElems a = c.currentDiffSet.getElems a ∧
    (c.close s).1.currentDiffSet.itemcount = c.currentDiffSet.itemcount := by
  unfold Changeset.close
  dsimp only
  split
  · exact ⟨rfl, rfl⟩
  · exact ⟨(upload_preserves _ _ _ a).1, (upload_preserves _ _ _ a).2⟩

/-- `Changeset.afterAdd` succeeds and keeps the payload and count of the
current diff set. -/
theorem afterAdd_preserves (c : Changeset) (s : MState) (a : String) :
    ∃ c' s', Changeset.afterAdd c s = (.ok c', s') ∧
      c'.currentDiffSet.getElems a = c.currentDiffSet.getElems a ∧
      c'.currentDiffSet.itemcount = c.currentDiffSet.itemcount := by
  unfold Changeset.afterAdd
  dsimp only
  split
  · refine ⟨_, _, rfl, ?_, ?_⟩
    · rw [(close_preserves _ _ a).1]
      exact (upload_preserves _ _ _ a).1
    · rw [(close_preserves _ _ a).2]
      exact (upload_preserves _ _ _ a).2
  · exact ⟨_, _, rfl, rfl, rfl⟩

/-- An `add` that hits a closed current diff set inside an open
changeset is retried once on a fresh diff set and accepted: the fresh
diff set holds exactly the stamped record. -/
theorem changeset_diffset_rotation (c : Changeset) (s : MState) (a : String)
    (item : XElem) (ho : c.opened = true) (hc : c.closed = false)
    (hd : c.currentDiffSet.closed = true)
    (hv : a = "create" ∨ a = "modify" ∨ a = "delete") :
    ∃ c' s', c.addChange s a item = (.ok c', s') ∧
      c'.currentDiffSet.itemcount = 1 ∧
      c'.currentDiffSet.getElems a = some [{ item with changesetAttr := c.id }] := by
  obtain ⟨cid, ctags, cop, ccl, ccnt, cds⟩ := c
  obtain ⟨dc, dm, dd, dcnt, dcl⟩ := cds
  dsimp only at ho hc hd
  subst ho
  subst hc
  subst hd
  unfold Changeset.addChange
  simp only [not_true_eq_false, if_false, Bool.false_eq_true, reduceIte]
  obtain ⟨d', hd', hcnt, hcl, hget⟩ := diffSet_new_addChange cid
    { s with stampedLog := s.stampedLog ++ [{ item with changesetAttr := cid }] }
    a { item with changesetAttr := cid } hv
  rw [diffSet_addChange_closed _ _ _ _ _ rfl]
  simp only [hd']
  obtain ⟨c', s', hAfter, hpres1, hpres2⟩ :=
    afterAdd_preserves
      { id := cid, tags := ctags, opened := true, closed := false,
        itemcount := ccnt, currentDiffSet := d' }
      { s with stampedLog := s.stampedLog ++ [{ item with changesetAttr := cid }] } a
  exact ⟨c', s', hAfter, by rw [hpres2]; exact hcnt, by rw [hpres1]; exact hget⟩

/-- **C7.**  A closed-container error is never propagated to the
orchestrator's caller.  For a valid action: every `addToChangeset`
succeeds; when the current changeset is closed, the orchestrator
catches `ChangesetClosed`, creates exactly one fresh changeset
(the old one moving to the ghost history) and retries the single add
once, after which the record is accepted as the sole item of the fresh
changeset's diff set; and when the current diff set of an open
changeset is closed, the changeset catches `DiffSetClosed`, rotates to
one fresh diff set and retries the single add once, after which the
stamped record is accepted. -/
theorem C7_closed_container_recovery (p : ImportProcessor) (s : MState)
    (e : XElem)
    (hv : e.action.getD "create" = "create" ∨
      e.action.getD "create" = "modify" ∨ e.action.getD "create" = "delete") :
    (∃ p' s', p.addToChangeset s e = (.ok p', s')) ∧
    (p.current_changeset.closed = true → ∃ c' s',
      p.addToChangeset s e =
        (.ok { current_changeset := c', tags := p.tags,
               pastChangesets := p.pastChangesets ++ [p.current_changeset] },
          s') ∧
      c'.itemcount = 1 ∧ c'.closed = false ∧
      c'.currentDiffSet.itemcount = 1 ∧
      c'.currentDiffSet.getElems (e.action.getD "create") =
        some [{ e with changesetAttr := c'.id }]) ∧
    (∀ (c : Changeset) (s2 : MState) (item : XElem) (a : String),
      c.opened = true → c.closed = false → c.currentDiffSet.closed = true →
      (a = "create" ∨ a = "modify" ∨ a = "delete") →
      ∃ c' s2', c.addChange s2 a item = (.ok c', s2') ∧
        c'.currentDiffSet.itemcount = 1 ∧
        c'.currentDiffSet.getElems a =
          some [{ item with changesetAttr := c.id }]) := by
  refine ⟨?_, ?_, ?_⟩
  · unfold ImportProcessor.addToChangeset
    by_cases hc : p.current_changeset.closed = true
    · obtain ⟨s₂, h₁⟩ := changeset_addChange_closed p.current_changeset
        { s with submittedLog := s.submittedLog ++ [(e.tag, e.id)] }
        (e.action.getD "create") e hc
      simp only [h₁]
      obtain ⟨c', h₂, -⟩ := changeset_new_addChange p.tags s₂
        (e.action.getD "create") e hv
      simp only [ImportProcessor.createChangeset, h₂]
      exact ⟨_, _, rfl⟩
    · obtain ⟨c', s', h₁⟩ := changeset_addChange_ok p.current_changeset
        { s with submittedLog := s.submittedLog ++ [(e.tag, e.id)] }
        (e.action.getD "create") e (by simpa using hc) hv
      simp only [h₁]
      exact ⟨_, _, rfl⟩
  · intro hc
    unfold ImportProcessor.addToChangeset
    obtain ⟨s₂, h₁⟩ := changeset_addChange_closed p.current_changeset
      { s with submittedLog := s.submittedLog ++ [(e.tag, e.id)] }
      (e.action.getD "create") e hc
    simp only [h₁]
    obtain ⟨c', h₂, hid, hcnt, hcl, hdcnt, hdcl, hget⟩ :=
      changeset_new_addChange p.tags s₂ (e.action.getD "create") e hv
    refine ⟨c',
      { events := s₂.events ++ [NetEvent.changesetCreate (toString s₂.nextCsId)],
        idMap := s₂.idMap, nextCsId := s₂.nextCsId + 1, oracle := s₂.oracle,
        uploadCount := s₂.uploadCount,
        stampedLog := s₂.stampedLog ++
          [{ e with changesetAttr := some (toString s₂.nextCsId) }],
        submittedLog := s₂.submittedLog }, ?_, hcnt, hcl, hdcnt, ?_⟩
    · simp only [ImportProcessor.createChangeset, h₂]
    · rw [hid]
      exact hget
  · intro c s2 item a ho hcc hd hva
    exact changeset_diffset_rotation c s2 a item ho hcc hd hva

theorem C7_closed_container_recovery_witness :
    (∃ p' s', (ImportProcessor.new []).addToChangeset
        (MState.init IdMapData.empty oracle0) (mkCreateElem 0)
        = (.ok p', s')) ∧
    ((ImportProcessor.new []).current_changeset.closed = true → ∃ c' s',
      (ImportProcessor.new []).addToChangeset
          (MState.init IdMapData.empty oracle0) (mkCreateElem 0) =
        (.ok { current_changeset := c', tags := (ImportProcessor.new []).tags,
               pastChangesets := (ImportProcessor.new []).pastChangesets ++
                 [(ImportProcessor.new []).current_changeset] }, s') ∧
      c'.itemcount = 1 ∧ c'.closed = false ∧
      c'.currentDiffSet.itemcount = 1 ∧
      c'.currentDiffSet.getElems ((mkCreateElem 0).action.getD "create") =
        some [{ mkCreateElem 0 with changesetAttr := c'.id }]) ∧
    (∀ (c : Changeset) (s2 : MState) (item : XElem) (a : String),
      c.opened = true → c.closed = false → c.currentDiffSet.closed = true →
      (a = "create" ∨ a = "modify" ∨ a = "delete") →
      ∃ c' s2', c.addChange s2 a item = (.ok c', s2') ∧
        c'.currentDiffSet.itemcount = 1 ∧
        c'.currentDiffSet.getElems a =
          some [{ item with changesetAttr := c.id }]) :=
  C7_closed_container_recovery (ImportProcessor.new [])
    (MState.init IdMapData.empty oracle0) (mkCreateElem 0) (by decide)

theorem DomLe_refl (m : IdMapData) : DomLe m m := fun _ _ h => h

theorem DomLe_trans {m1 m2 m3 : IdMapData} (h1 : DomLe m1 m2)
    (h2 : DomLe m2 m3) : DomLe m1 m3 :=
  fun t o h => h2 t o (h1 t o h)

/-- A `processResult` assignment never removes a key. -/
theorem applyResultElem_dom (m : IdMapData) (e : DiffResultElem) :
    DomLe m (applyResultElem m e) := by
  intro t o h
  unfold applyResultElem
  rcases e.new_id with _ | nid <;> dsimp only <;> split <;> simp_all

/-- `processResult` never removes a key. -/
theorem processResult_dom (m : IdMapData) (content : List DiffResultElem) :
    DomLe m (processResult m content) := by
  unfold processResult
  induction content generalizing m with
  | nil => exact DomLe_refl m
  | cons e es ih => exact DomLe_trans (applyResultElem_dom m e) (ih _)

/-- `DiffSet.upload` leaves the submission log alone and only grows the
id map's domain. -/
theorem upload_state (d : DiffSet) (csid : Option String) (s : MState) :
    (d.upload csid s).2.submittedLog = s.submittedLog ∧
    DomLe s.idMap (d.upload csid s).2.idMap := by
  unfold DiffSet.upload
  split
  · exact ⟨rfl, DomLe_refl _⟩
  · exact ⟨rfl, processResult_dom _ _⟩

/-- `DiffSet.addChange` leaves the submission log alone and only grows
the id map's domain. -/
theorem diffSet_addChange_state (d : DiffSet) (csid : Option String)
    (s : MState) (a : String) (item : XElem) :
    (d.addChange csid s a item).2.submittedLog = s.submittedLog ∧
    DomLe s.idMap (d.addChange csid s a item).2.idMap := by
  unfold DiffSet.addChange
  split
  · exact ⟨rfl, DomLe_refl _⟩
  · cases hg : d.getElems a with
    | none =>
      constructor
      · simp only [hg]
      · simp only [hg]
        exact DomLe_refl _
    | some l =>
      constructor
      · simp only [hg]
        split
        · exact (upload_state _ _ _).1
        · rfl
      · simp only [hg]
        split
        · exact (upload_state _ _ _).2
        · exact DomLe_refl _

/-- `Changeset.openCs` leaves the submission log and id map alone. -/
theorem openCs_state (c : Changeset) (s : MState) :
    (c.openCs s).2.submittedLog = s.submittedLog ∧
    (c.openCs s).2.idMap = s.idMap :=
  ⟨rfl, rfl⟩

/-- `Changeset.close` leaves the submission log alone and only grows
the id map's domain. -/
theorem close_state (c : Changeset) (s : MState) :
    (c.close s).2.submittedLog = s.submittedLog ∧
    DomLe s.idMap (c.close s).2.idMap := by
  unfold Changeset.close
  dsimp only
  split
  · exact ⟨rfl, DomLe_refl _⟩
  · exact ⟨(upload_state _ _ _).1, (upload_state _ _ _).2⟩

/-- `Changeset.afterAdd` leaves the submission log alone and only grows
the id map's domain. -/
theorem afterAdd_state (c : Changeset) (s : MState) :
    (Changeset.afterAdd c s).2.submittedLog = s.submittedLog ∧
    DomLe s.idMap (Changeset.afterAdd c s).2.idMap := by
  unfold Changeset.afterAdd
  dsimp only
  split
  · constructor
    · rw [(close_state _ _).1]
      exact (upload_state _ _ _).1
    · exact DomLe_trans (upload_state _ _ _).2 (close_state _ _).2
  · exact ⟨rfl, DomLe_refl _⟩

/-- `Changeset.addChange` leaves the submission log alone and only
grows the id map's domain, whatever its outcome. -/
theorem changeset_addChange_state (c : Changeset) (s : MState) (a : String)
    (item : XElem) :
    (c.addChange s a item).2.submittedLog = s.submittedLog ∧
    DomLe s.idMap (c.addChange s a item).2.idMap := by
  obtain ⟨cid, ctags, cop, ccl, ccnt, cds⟩ := c
  have hbody : ∀ (cid2 : Option String) (s2 : MState),
      s2.submittedLog = s.submittedLog → s2.idMap = s.idMap →
      ((Changeset.mk cid2 ctags true ccl ccnt cds).addChange s2 a item).2.submittedLog
          = s.submittedLog ∧
      DomLe s.idMap
        ((Changeset.mk cid2 ctags true ccl ccnt cds).addChange s2 a item).2.idMap := by
    intro cid2 s2 hlog hmap
    cases ccl with
    | true =>
      unfold Changeset.addChange
      simp only [not_true_eq_false, if_false, Bool.false_eq_true, reduceIte]
      exact ⟨hlog, fun t o h => by rw [hmap]; exact h⟩
    | false =>
      unfold Changeset.addChange
      simp only [not_true_eq_false, if_false, Bool.false_eq_true, reduceIte]
      rcases hadd : cds.addChange cid2
          { s2 with stampedLog := s2.stampedLog ++
            [{ item with changesetAttr := cid2 }] }
          a { item with changesetAttr := cid2 } with ⟨res, s₃⟩
      have hst := diffSet_addChange_state cds cid2
        { s2 with stampedLog := s2.stampedLog ++
          [{ item with changesetAttr := cid2 }] }
        a { item with changesetAttr := cid2 }
      rw [hadd] at hst
      have hst1 : s₃.submittedLog = s.submittedLog := by
        rw [show s₃.submittedLog = _ from hst.1]
        exact hlog
      have hst2 : DomLe s.idMap s₃.idMap := fun t o h => hst.2 t o (by rw [hmap]; exact h)
      rcases res with er | d
      · rcases er with msg | _ | _ | k | _ <;> simp only [hadd]
        · exact ⟨hst1, hst2⟩
        · exact ⟨hst1, hst2⟩
        · rcases hretry : DiffSet.new.addChange cid2 s₃ a
            { item with changesetAttr := cid2 } with ⟨res2, s₄⟩
          have hr := diffSet_addChange_state DiffSet.new cid2 s₃ a
            { item with changesetAttr := cid2 }
          rw [hretry] at hr
          rcases res2 with e2 | d2 <;> simp only [hretry]
          · exact ⟨hr.1.trans hst1, DomLe_trans hst2 hr.2⟩
          · have hA := afterAdd_state
              (Changeset.mk cid2 ctags true false ccnt d2) s₄
            exact ⟨hA.1.trans (hr.1.trans hst1),
              DomLe_trans hst2 (DomLe_trans hr.2 hA.2)⟩
        · exact ⟨hst1, hst2⟩
        · exact ⟨hst1, hst2⟩
      · simp only [hadd]
        have hA := afterAdd_state (Changeset.mk cid2 ctags true false ccnt d) s₃
        exact ⟨hA.1.trans hst1, DomLe_trans hst2 hA.2⟩
  cases cop with
  | true => exact hbody cid s rfl rfl
  | false =>
    have hopen : (Changeset.mk cid ctags false ccl ccnt cds).addChange s a item
        = (Changeset.mk (some (toString s.nextCsId)) ctags true ccl ccnt cds).addChange
          (MState.mk (s.events ++ [NetEvent.changesetCreate (toString s.nextCsId)])
            s.idMap (s.nextCsId + 1) s.oracle s.uploadCount s.stampedLog
            s.submittedLog) a item := by
      conv_lhs => unfold Changeset.addChange
      conv_rhs => unfold Changeset.addChange
      rfl
    rw [hopen]
    exact hbody _ _ rfl rfl

/-- `addToChangeset` appends exactly its record to the submission log
and only grows the id map's domain, whatever its outcome. -/
theorem addToChangeset_state (p : ImportProcessor) (s : MState) (e : XElem) :
    (p.addToChangeset s e).2.submittedLog =
      s.submittedLog ++ [(e.tag, e.id)] ∧
    DomLe s.idMap (p.addToChangeset s e).2.idMap := by
  unfold ImportProcessor.addToChangeset
  rcases hadd : p.current_changeset.addChange
      { s with submittedLog := s.submittedLog ++ [(e.tag, e.id)] }
      (e.action.getD "create") e with ⟨res, s₂⟩
  have hst := changeset_addChange_state p.current_changeset
    { s with submittedLog := s.submittedLog ++ [(e.tag, e.id)] }
    (e.action.getD "create") e
  rw [hadd] at hst
  rcases res with er | c
  · rcases er with msg | _ | _ | k | _ <;> simp only [hadd]
    · exact hst
    · rcases hretry : (p.createChangeset).current_changeset.addChange s₂
        (e.action.getD "create") e with ⟨res2, s₃⟩
      have hst2 := changeset_addChange_state (p.createChangeset).current_changeset
        s₂ (e.action.getD "create") e
      rw [hretry] at hst2
      rcases res2 with e2 | c2 <;> simp only [hretry]
      · exact ⟨hst2.1.trans hst.1, DomLe_trans hst.2 hst2.2⟩
      · exact ⟨hst2.1.trans hst.1, DomLe_trans hst.2 hst2.2⟩
    · exact hst
    · exact hst
    · exact hst
  · simp only [hadd]
    exact hst

theorem C10_keyerror_after_open_witness :
    ∃ s', (ImportProcessor.new []).addToChangeset
        (MState.init IdMapData.empty oracle0) weirdActionElem
        = (.error (.keyError "replace"), s') ∧
      s'.events = [NetEvent.changesetCreate "1"] ∧
      s'.stampedLog = [{ weirdActionElem with changesetAttr := some "1" }] :=
  C10_keyerror_after_open [] IdMapData.empty oracle0 weirdActionElem "replace"
    rfl (by decide)

/-- The `<nd>` loop of the way branch raises the size error as soon as
its counter passes 2000, whatever the remaining children are. -/
theorem processNds_overflow (m : IdMapData) (wid : String) :
    ∀ (nds : List (Option String)) (count : Nat), count ≤ 2000 →
      2000 < count + nds.length →
      processNds m wid count nds =
        .error (.xmlException ("node count >= 2000 in " ++ wid)) := by
  intro nds
  induction nds with
  | nil =>
    intro count h1 h2
    simp at h2
    omega
  | cons c cs ih =>
    intro count h1 h2
    unfold processNds
    by_cases h3 : count + 1 > 2000
    · rw [if_pos h3]
    · rw [if_neg h3]
      have h4 : count + 1 ≤ 2000 := by omega
      have h5 : 2000 < count + 1 + cs.length := by
        simp at h2
        omega
      rw [ih (count + 1) h4 h5]

/-- **C8, counterexample.**  The oversized-record check runs inside the
way loop, after earlier records were already submitted: on a document
with a fresh node followed by a way with 2001 `<nd>` children, the run
does abort with the size error, but only after the node has opened a
changeset server-side — a network call precedes the input error. -/
theorem C8_counterexample :
    ((ImportProcessor.new []).parse c8doc (MState.init IdMapData.empty oracle0)).1
      = .error (.xmlException "node count >= 2000 in W1") ∧
    ((ImportProcessor.new []).parse c8doc
        (MState.init IdMapData.empty oracle0)).2.events
      = [NetEvent.changesetCreate "1"] := by
  have hnds : processNds IdMapData.empty "W1" 0 bigWay.nds
      = .error (.xmlException "node count >= 2000 in W1") := by
    rw [show bigWay.nds = List.replicate 2001 none from rfl]
    rw [processNds_overflow IdMapData.empty "W1" (List.replicate 2001 none) 0
      (by omega) (by rw [List.length_replicate]; omega)]
    rfl
  have h1 : parseNWLoop "node" c8doc.elems (ImportProcessor.new [])
      (MState.init IdMapData.empty oracle0)
      = (.ok c8procAfterNode, c8stateAfterNode) := rfl
  have h2 : parseNWLoop "way" c8doc.elems c8procAfterNode c8stateAfterNode
      = (.error (.xmlException "node count >= 2000 in W1"), c8stateAfterNode) := by
    show parseNWLoop "way" [plainNode "N1", bigWay] c8procAfterNode
        c8stateAfterNode = _
    unfold parseNWLoop
    rw [if_pos (by decide : (plainNode "N1").tag ≠ "way")]
    unfold parseNWLoop
    rw [if_neg (by decide : ¬ bigWay.tag ≠ "way")]
    rw [if_neg (by decide :
      ¬ (c8stateAfterNode.idMap "way" bigWay.id).isSome = true)]
    rw [show c8stateAfterNode.idMap = IdMapData.empty from rfl,
      show bigWay.id = "W1" from rfl]
    rw [if_pos (by decide : bigWay.tag = "way")]
    rw [hnds]
  constructor
  · show ((ImportProcessor.new []).parse c8doc
        (MState.init IdMapData.empty oracle0)).1 = _
    unfold ImportProcessor.parse
    rw [if_neg (by decide : ¬ c8doc.rootTag ≠ "osm")]
    rw [if_neg (by decide : ¬ (c8doc.elems.any fun e =>
      e.tag = "add" ∨ e.tag = "delete" ∨ e.tag = "modify") = true)]
    simp only [h1, h2]
  · show ((ImportProcessor.new []).parse c8doc
        (MState.init IdMapData.empty oracle0)).2.events = _
    unfold ImportProcessor.parse
    rw [if_neg (by decide : ¬ c8doc.rootTag ≠ "osm")]
    rw [if_neg (by decide : ¬ (c8doc.elems.any fun e =>
      e.tag = "add" ∨ e.tag = "delete" ∨ e.tag = "modify") = true)]
    simp only [h1, h2]
    rfl

/-- **C8, amended.**  A document of the incremental-change kind (one
carrying an `add`/`delete`/`modify` marker) is rejected before any
record is processed: `parse` raises the input error with the state
untouched, so no changeset is created and no batch is uploaded.  The
oversized-composite check, by contrast, only aborts when the offending
way is reached, which can be after earlier records have already caused
network calls (see the counterexample). -/
theorem C8_marker_rejected_before_network (doc : OsmDoc)
    (p : ImportProcessor) (s : MState) (hroot : doc.rootTag = "osm")
    (hmark : doc.elems.any (fun e =>
      e.tag = "add" ∨ e.tag = "delete" ∨ e.tag = "modify") = true) :
    p.parse doc s = (.error (.xmlException "osmChange data in an osm file"), s) := by
  unfold ImportProcessor.parse
  rw [if_neg (fun hcon => hcon hroot), if_pos hmark]

theorem C8_marker_rejected_before_network_witness :
    (ImportProcessor.new []).parse c8markerDoc
        (MState.init IdMapData.empty oracle0)
      = (.error (.xmlException "osmChange data in an osm file"),
         MState.init IdMapData.empty oracle0) :=
  C8_marker_rejected_before_network c8markerDoc (ImportProcessor.new [])
    (MState.init IdMapData.empty oracle0) rfl (by rfl)

/-- Transport of the submission-log property across one guarded
submission: a new entry checked unmapped at submission time stays
unmapped in the earlier map, and later map growth never unmaps. -/
theorem log_transport {s s' : MState} {t i : String}
    (hlog : s'.submittedLog = s.submittedLog ++ [(t, i)])
    (hdom : DomLe s.idMap s'.idMap) (hguard : s.idMap t i = none)
    {pr : String × String}
    (h : pr ∈ s'.submittedLog ∨ s'.idMap pr.1 pr.2 = none) :
    pr ∈ s.submittedLog ∨ s.idMap pr.1 pr.2 = none := by
  rcases h with h | h
  · rw [hlog] at h
    rcases List.mem_append.1 h with h | h
    · exact .inl h
    · right
      have : pr = (t, i) := by simpa using h
      rw [this]
      exact hguard
  · right
    rcases he : s.idMap pr.1 pr.2 with _ | v
    · rfl
    · have := hdom pr.1 pr.2 (by rw [he]; rfl)
      rw [h] at this
      cases this

/-- The node/way loop of `parse` only submits records that are unmapped
at the moment of submission, and only grows the id map domain. -/
theorem parseNWLoop_log (ty : String) (es : List XElem) :
    ∀ (p : ImportProcessor) (s : MState),
      (∀ pr ∈ (parseNWLoop ty es p s).2.submittedLog,
        pr ∈ s.submittedLog ∨ s.idMap pr.1 pr.2 = none) ∧
      DomLe s.idMap (parseNWLoop ty es p s).2.idMap := by
  induction es with
  | nil => exact fun p s => ⟨fun pr h => .inl h, DomLe_refl _⟩
  | cons e es ih =>
    intro p s
    unfold parseNWLoop
    by_cases h1 : e.tag = ty
    case neg =>
      rw [if_pos h1]
      exact ih p s
    case pos =>
      rw [if_neg (fun hcon => hcon h1)]
      by_cases h2 : (s.idMap ty e.id).isSome = true
      case pos =>
        rw [if_pos h2]
        exact ih p s
      case neg =>
        rw [if_neg h2]
        have hguard : s.idMap ty e.id = none :=
          Option.not_isSome_iff_eq_none.1 (fun hcon => h2 hcon)
        rcases hnd : (if e.tag = "way" then
            match processNds s.idMap e.id 0 e.nds with
            | .error err => (.error err : Except PyErr XElem)
            | .ok nds => .ok { e with nds := nds }
          else .ok e) with er | e2
        · simp only [hnd]
          exact ⟨fun pr h => .inl h, DomLe_refl _⟩
        · have hpres : e2.tag = e.tag ∧ e2.id = e.id := by
            by_cases hw : e.tag = "way"
            · rw [if_pos hw] at hnd
              rcases hm : processNds s.idMap e.id 0 e.nds with er3 | nds3 <;>
                rw [hm] at hnd
              · cases hnd
              · cases hnd
                exact ⟨rfl, rfl⟩
            · rw [if_neg hw] at hnd
              cases hnd
              exact ⟨rfl, rfl⟩
          simp only [hnd]
          have hats := addToChangeset_state p s e2
          rcases hadd : p.addToChangeset s e2 with ⟨res, s₂⟩
          rw [hadd] at hats
          have hlog2 : s₂.submittedLog = s.submittedLog ++ [(e.tag, e.id)] := by
            rw [hats.1, hpres.1, hpres.2]
          have hguard2 : s.idMap e.tag e.id = none := by
            rw [h1]; exact hguard
          rcases res with er | p2
          · simp only [hadd]
            refine ⟨fun pr h => ?_, hats.2⟩
            exact log_transport hlog2 hats.2 hguard2 (.inl h)
          · simp only [hadd]
            obtain ⟨ihlog, ihdom⟩ := ih p2 s₂
            refine ⟨fun pr h => ?_, DomLe_trans hats.2 ihdom⟩
            exact log_transport hlog2 hats.2 hguard2 (ihlog pr h)

/-- The plain relation loop of `parse` only submits records that are
unmapped at the moment of submission, and only grows the id map
domain. -/
theorem parseRelLoopPlain_log (es : List XElem) :
    ∀ (p : ImportProcessor) (s : MState),
      (∀ pr ∈ (parseRelLoopPlain es p s).2.submittedLog,
        pr ∈ s.submittedLog ∨ s.idMap pr.1 pr.2 = none) ∧
      DomLe s.idMap (parseRelLoopPlain es p s).2.idMap := by
  induction es with
  | nil => exact fun p s => ⟨fun pr h => .inl h, DomLe_refl _⟩
  | cons e es ih =>
    intro p s
    unfold parseRelLoopPlain
    by_cases h1 : e.tag = "relation"
    case neg =>
      rw [if_pos h1]
      exact ih p s
    case pos =>
      rw [if_neg (fun hcon => hcon h1)]
      by_cases h2 : (s.idMap "relation" e.id).isSome = true
      case pos =>
        rw [if_pos h2]
        exact ih p s
      case neg =>
        rw [if_neg h2]
        have hguard : s.idMap "relation" e.id = none :=
          Option.not_isSome_iff_eq_none.1 (fun hcon => h2 hcon)
        have hats := addToChangeset_state p s (updateRelationMemberIds s.idMap e)
        rcases hadd : p.addToChangeset s (updateRelationMemberIds s.idMap e)
          with ⟨res, s₂⟩
        rw [hadd] at hats
        have hlog2 : s₂.submittedLog = s.submittedLog ++ [(e.tag, e.id)] :=
          hats.1
        have hguard2 : s.idMap e.tag e.id = none := by
          rw [h1]; exact hguard
        rcases res with er | p2
        · simp only [hadd]
          refine ⟨fun pr h => ?_, hats.2⟩
          exact log_transport hlog2 hats.2 hguard2 (.inl h)
        · simp only [hadd]
          obtain ⟨ihlog, ihdom⟩ := ih p2 s₂
          refine ⟨fun pr h => ?_, DomLe_trans hats.2 ihdom⟩
          exact log_transport hlog2 hats.2 hguard2 (ihlog pr h)

/-- Every entry of `relationStore` is a relation element stored under
its own id. -/
theorem relationStoreOf_wf (elems : List XElem) :
    ∀ kv ∈ relationStoreOf elems, kv.2.tag = "relation" ∧ kv.2.id = kv.1 := by
  unfold relationStoreOf
  have hfilter : ∀ e ∈ elems.filter (fun e => e.tag = "relation"),
      e.tag = "relation" := by
    intro e he
    simpa using (List.mem_filter.1 he).2
  generalize hrs : elems.filter (fun e => e.tag = "relation") = rs at hfilter
  clear hrs
  suffices h : ∀ (rs : List XElem) (st : List (String × XElem)),
      (∀ e ∈ rs, e.tag = "relation") →
      (∀ kv ∈ st, kv.2.tag = "relation" ∧ kv.2.id = kv.1) →
      ∀ kv ∈ rs.foldl (fun st e => storeInsert st e.id e) st,
        kv.2.tag = "relation" ∧ kv.2.id = kv.1 by
    exact h rs [] hfilter (fun kv h => absurd h (List.not_mem_nil kv))
  intro rs
  induction rs with
  | nil => exact fun st _ hst kv h => hst kv h
  | cons e es ih =>
    intro st hes hst kv hkv
    refine ih (storeInsert st e.id e) (fun x hx => hes x (.tail _ hx)) ?_ kv hkv
    intro kv2 hkv2
    unfold storeInsert at hkv2
    split at hkv2
    · rcases List.mem_map.1 hkv2 with ⟨kv3, hkv3, heq⟩
      by_cases h3 : kv3.1 = e.id
      · rw [if_pos h3] at heq
        rw [← heq]
        exact ⟨hes e (.head _), rfl⟩
      · rw [if_neg h3] at heq
        rw [← heq]
        exact hst kv3 hkv3
    · rcases List.mem_append.1 hkv2 with h | h
      · exact hst kv2 h
      · have : kv2 = (e.id, e) := by simpa using h
        rw [this]
        exact ⟨hes e (.head _), rfl⟩

/-- The dependency-sorted emission loop only submits relations that are
unmapped at the moment of submission, and only grows the id map
domain. -/
theorem parseRelSortEmit_log (st : List (String × XElem))
    (hst : ∀ kv ∈ st, kv.2.tag = "relation" ∧ kv.2.id = kv.1)
    (order : List String) :
    ∀ (p : ImportProcessor) (s : MState),
      (∀ pr ∈ (parseRelSortEmit st order p s).2.submittedLog,
        pr ∈ s.submittedLog ∨
          (pr.1 = "relation" ∧ s.idMap "relation" pr.2 = none)) ∧
      DomLe s.idMap (parseRelSortEmit st order p s).2.idMap := by
  induction order with
  | nil => exact fun p s => ⟨fun pr h => .inl h, DomLe_refl _⟩
  | cons rid rest ih =>
    intro p s
    unfold parseRelSortEmit
    by_cases h1 : rid = "root"
    case pos =>
      rw [if_pos h1]
      exact ih p s
    case neg =>
      rw [if_neg h1]
      rcases hget : storeGet st rid with _ | r
      · exact ⟨fun pr h => .inl h, DomLe_refl _⟩
      · dsimp only
        have hr : r.tag = "relation" ∧ r.id = rid := by
          have hmem : (rid, r) ∈ st := by
            unfold storeGet at hget
            rcases hf : st.find? (fun kv => kv.1 = rid) with _ | kv
            · rw [hf] at hget
              cases hget
            · rw [hf] at hget
              have h2 := List.find?_some hf
              have h3 := List.mem_of_find?_eq_some hf
              rcases kv with ⟨k1, k2⟩
              simp at hget h2
              subst h2
              subst hget
              exact h3
          exact ⟨(hst _ hmem).1, (hst _ hmem).2⟩
        by_cases h2 : (s.idMap "relation" r.id).isSome = true
        case pos =>
          rw [if_pos h2]
          exact ih p s
        case neg =>
          rw [if_neg h2]
          have hguard : s.idMap "relation" r.id = none :=
            Option.not_isSome_iff_eq_none.1 (fun hcon => h2 hcon)
          have hats := addToChangeset_state p s (updateRelationMemberIds s.idMap r)
          rcases hadd : p.addToChangeset s (updateRelationMemberIds s.idMap r)
            with ⟨res, s₂⟩
          rw [hadd] at hats
          have hlog2 : s₂.submittedLog = s.submittedLog ++ [(r.tag, r.id)] :=
            hats.1
          have key : ∀ pr : String × String,
              pr ∈ s₂.submittedLog ∨
                (pr.1 = "relation" ∧ s₂.idMap "relation" pr.2 = none) →
              pr ∈ s.submittedLog ∨
                (pr.1 = "relation" ∧ s.idMap "relation" pr.2 = none) := by
            intro pr h
            rcases h with h | h
            · rw [hlog2] at h
              rcases List.mem_append.1 h with h | h
              · exact .inl h
              · right
                have : pr = (r.tag, r.id) := by simpa using h
                rw [this]
                exact ⟨hr.1, hguard⟩
            · right
              refine ⟨h.1, ?_⟩
              rcases he : s.idMap "relation" pr.2 with _ | v
              · rfl
              · have := hats.2 "relation" pr.2 (by rw [he]; rfl)
                rw [h.2] at this
                cases this
          rcases res with er | p2
          · simp only [hadd]
            exact ⟨fun pr h => key pr (.inl h), hats.2⟩
          · simp only [hadd]
            obtain ⟨ihlog, ihdom⟩ := ih p2 s₂
            exact ⟨fun pr h => key pr (ihlog pr h),
              DomLe_trans hats.2 ihdom⟩

/-- Later map growth never unmaps a key. -/
theorem dom_none {m m' : IdMapData} (h : DomLe m m') {t o : String}
    (hn : m' t o = none) : m t o = none := by
  rcases he : m t o with _ | v
  · rfl
  · have := h t o (by rw [he]; rfl)
    rw [hn] at this
    cases this

/-- **C4.**  For every input document and every initial identifier
store, a run of the orchestrator submits no record whose (type,
sourceId) is already present in the store: every submitted record was
unmapped in the initial store.  In particular a second run over the
same input with the store populated by the first run submits no
additional creates for already-mapped sourceIds. -/
theorem C4_no_creates_for_mapped (doc : OsmDoc) (tags : List (String × String))
    (m0 : IdMapData) (orc : Nat → List DiffResultElem) :
    ∀ pr ∈ ((ImportProcessor.new tags).parse doc
        (MState.init m0 orc)).2.submittedLog,
      m0 pr.1 pr.2 = none := by
  intro pr hpr
  unfold ImportProcessor.parse at hpr
  split at hpr
  · simp [MState.init] at hpr
  · split at hpr
    · simp [MState.init] at hpr
    · rcases h1 : parseNWLoop "node" doc.elems (ImportProcessor.new tags)
        (MState.init m0 orc) with ⟨r1, s1⟩
      have hL1 := parseNWLoop_log "node" doc.elems (ImportProcessor.new tags)
        (MState.init m0 orc)
      rw [h1] at hL1
      simp only [h1] at hpr
      have P1 : ∀ pr2 ∈ s1.submittedLog, m0 pr2.1 pr2.2 = none := by
        intro pr2 h
        rcases hL1.1 pr2 h with h | h
        · simp [MState.init] at h
        · exact h
      have D1 : DomLe m0 s1.idMap := hL1.2
      rcases r1 with er | p1
      · exact P1 pr hpr
      · rcases h2 : parseNWLoop "way" doc.elems p1 s1 with ⟨r2, s2⟩
        have hL2 := parseNWLoop_log "way" doc.elems p1 s1
        rw [h2] at hL2
        simp only [h2] at hpr
        have P2 : ∀ pr2 ∈ s2.submittedLog, m0 pr2.1 pr2.2 = none := by
          intro pr2 h
          rcases hL2.1 pr2 h with h | h
          · exact P1 pr2 h
          · exact dom_none D1 h
        have D2 : DomLe m0 s2.idMap := DomLe_trans D1 hL2.2
        rcases r2 with er | p2
        · exact P2 pr hpr
        · rcases h3 : (if doc.elems.any (fun e =>
              e.members.any (fun mem => mem.mtype = "relation")) then
              match buildRelGraph (relationStoreOf doc.elems) with
              | none => (.error (.keyError "graph construction"), s2)
              | some g =>
                parseRelSortEmit (relationStoreOf doc.elems)
                  (g.traversal "root" "post") p2 s2
            else parseRelLoopPlain doc.elems p2 s2) with ⟨r3, s3⟩
          simp only [h3] at hpr
          have P3 : ∀ pr2 ∈ s3.submittedLog, m0 pr2.1 pr2.2 = none := by
            intro pr2 h
            by_cases hrs : doc.elems.any (fun e =>
              e.members.any (fun mem => mem.mtype = "relation")) = true
            · rw [if_pos hrs] at h3
              rcases hg : buildRelGraph (relationStoreOf doc.elems) with _ | g <;>
                simp only [hg] at h3
              · injection h3 with hr3 hs3
                subst hs3
                exact P2 pr2 h
              · have hL3 := parseRelSortEmit_log (relationStoreOf doc.elems)
                  (relationStoreOf_wf doc.elems) (g.traversal "root" "post") p2 s2
                rw [h3] at hL3
                rcases hL3.1 pr2 h with h | h
                · exact P2 pr2 h
                · rw [h.1]
                  exact dom_none D2 h.2
            · rw [if_neg hrs] at h3
              have hL3 := parseRelLoopPlain_log doc.elems p2 s2
              rw [h3] at hL3
              rcases hL3.1 pr2 h with h | h
              · exact P2 pr2 h
              · exact dom_none D2 h
          rcases r3 with er | p3
          · exact P3 pr hpr
          · have hcl := close_state p3.current_changeset s3
            rcases hc : p3.current_changeset.close s3 with ⟨c4, s4⟩
            rw [hc] at hcl
            simp only [hc] at hpr
            apply P3
            rw [← hcl.1]
            exact hpr

/-- **C9, amended.**  Already-mapped relations are not excluded from
the dependency graph or the traversal (see the counterexample); they
are skipped only at emission time: the dependency-sorted emission loop
never submits a relation whose sourceId is mapped at the start of the
loop. -/
theorem C9_mapped_relations_not_submitted (st : List (String × XElem))
    (hst : ∀ kv ∈ st, kv.2.tag = "relation" ∧ kv.2.id = kv.1)
    (order : List String) (p : ImportProcessor) (s : MState) :
    ∀ pr ∈ (parseRelSortEmit st order p s).2.submittedLog,
      pr ∈ s.submittedLog ∨
        (pr.1 = "relation" ∧ s.idMap "relation" pr.2 = none) :=
  (parseRelSortEmit_log st hst order p s).1

/-- **C9, counterexample.**  With R2 already mapped in the store and R1
referencing R2, the resolver's graph still contains R2 as a node and
the edge R1 → R2: mapped records are not excluded from graph
construction. -/
theorem C9_counterexample :
    mapWithR2 "relation" "R2" = some "900" ∧
    ∃ g, buildRelGraph c9store = some g ∧ "R2" ∈ g.nodesList ∧
      "R2" ∈ g.node_neighbors "R1" := by
  refine ⟨rfl, ?_⟩
  refine ⟨_, rfl, ?_, ?_⟩ <;> decide

theorem C9_mapped_relations_not_submitted_witness :
    (∀ kv ∈ c9store, kv.2.tag = "relation" ∧ kv.2.id = kv.1) ∧
    (("relation", "R1") ∈ (parseRelSortEmit c9store ["R1"]
        (ImportProcessor.new []) (MState.init mapWithR2 oracle0)).2.submittedLog) ∧
    (("relation", "R1") ∈ (MState.init mapWithR2 oracle0).submittedLog ∨
      (("relation", "R1").1 = "relation" ∧
        (MState.init mapWithR2 oracle0).idMap "relation"
          ("relation", "R1").2 = none)) := by
  refine ⟨by decide, by decide, ?_⟩
  exact C9_mapped_relations_not_submitted c9store (by decide) ["R1"]
    (ImportProcessor.new []) (MState.init mapWithR2 oracle0)
    ("relation", "R1") (by decide)

theorem C4_no_creates_for_mapped_witness :
    (("node", "2") ∈ ((ImportProcessor.new []).parse c4doc
        (MState.init mapOne oracle0)).2.submittedLog) ∧
    mapOne ("node", "2").1 ("node", "2").2 = none := by
  refine ⟨by decide, ?_⟩
  exact C4_no_creates_for_mapped c4doc [] mapOne oracle0 ("node", "2") (by decide)

theorem stampedChunk_succ (cid : String) (f : Nat → XElem) (lo len : Nat) :
    stampedChunk cid f lo (len+1) =
      stampedChunk cid f lo len ++ [stampElem cid (f (lo + len))] := by
  unfold stampedChunk
  rw [List.range'_concat]
  simp

theorem mAfter_succ (m0 : IdMapData) (orc : Nat → List DiffResultElem)
    (u : Nat) :
    mAfter m0 orc (u+1) = processResult (mAfter m0 orc u) (orc u) := by
  unfold mAfter
  rw [List.range_succ u, List.foldl_append]
  rfl

/-- One open-changeset add, written with explicit literals: the
stamped item goes through the current diff set and the count/limit
tail. -/
theorem addChange_open_eq (cid : Option String)
    (tags : List (String × String)) (cnt : Nat) (d : DiffSet) (s : MState)
    (a : String) (item : XElem) :
    (Changeset.mk cid tags true false cnt d).addChange s a item =
      (match d.addChange cid
          { s with stampedLog := s.stampedLog ++
            [{ item with changesetAttr := cid }] }
          a { item with changesetAttr := cid } with
      | (.error .diffSetClosed, s2) =>
        (match DiffSet.new.addChange cid s2 a { item with changesetAttr := cid } with
         | (.error e, s3) => (.error e, s3)
         | (.ok d2, s3) =>
           Changeset.afterAdd (Changeset.mk cid tags true false cnt d2) s3)
      | (.error e, s2) => (.error e, s2)
      | (.ok d2, s2) =>
        Changeset.afterAdd (Changeset.mk cid tags true false cnt d2) s2) := by
  unfold Changeset.addChange
  simp only [not_true_eq_false, if_false, Bool.false_eq_true, reduceIte]

/-- An open diff set accepting one item below the 1000 limit. -/
theorem diffSet_add_below (cr : List XElem) (cnt : Nat)
    (csid : Option String) (s : MState) (item : XElem)
    (hcnt : cnt + 1 < 1000) :
    (DiffSet.mk cr [] [] cnt false).addChange csid s "create" item =
      (.ok (DiffSet.mk (cr ++ [item]) [] [] (cnt + 1) false), s) := by
  unfold DiffSet.addChange DiffSet.getElems DiffSet.setElems DiffSet.getItemLimit
  simp only [Bool.false_eq_true, if_false, reduceIte]
  rw [if_neg (by omega : ¬ (cnt + 1 ≥ 1000))]

/-- An open diff set hitting the 1000 limit: the item is accepted and
the diff set uploads and closes. -/
theorem diffSet_add_limit (cr : List XElem) (csid : String) (s : MState)
    (item : XElem) :
    (DiffSet.mk cr [] [] 999 false).addChange (some csid) s "create" item =
      (.ok (DiffSet.mk (cr ++ [item]) [] [] 1000 true),
        { s with
          events := s.events ++
            [NetEvent.diffUpload csid (cr ++ [item]) [] []],
          idMap := processResult s.idMap (s.oracle s.uploadCount),
          uploadCount := s.uploadCount + 1 }) := by
  unfold DiffSet.addChange DiffSet.getElems DiffSet.setElems
    DiffSet.getItemLimit DiffSet.upload
  simp only [Bool.false_eq_true, if_false, reduceIte]
  norm_num

/-- The count/limit tail below the 50000 limit: just the new count. -/
theorem afterAdd_below (cid : Option String) (tags : List (String × String))
    (cnt : Nat) (d : DiffSet) (s : MState) (h : cnt + 1 < 50000) :
    Changeset.afterAdd (Changeset.mk cid tags true false cnt d) s =
      (.ok (Changeset.mk cid tags true false (cnt + 1) d), s) := by
  unfold Changeset.afterAdd Changeset.getItemLimit
  dsimp only
  rw [if_neg (by omega : ¬ (cnt + 1 ≥ 50000))]

/-- The count/limit tail at the 50000 limit, with the current diff set
already uploaded: the changeset closes. -/
theorem afterAdd_limit (cid : String) (tags : List (String × String))
    (cr : List XElem) (s : MState) :
    Changeset.afterAdd
        (Changeset.mk (some cid) tags true false 49999
          (DiffSet.mk cr [] [] 1000 true)) s =
      (.ok (Changeset.mk (some cid) tags true true 50000
          (DiffSet.mk cr [] [] 1000 true)),
        { s with events := s.events ++ [NetEvent.changesetClose cid] }) := by
  unfold Changeset.afterAdd Changeset.getItemLimit Changeset.close
    DiffSet.upload
  norm_num

theorem midStep_caseB (tags : List (String × String)) (m0 : IdMapData)
    (orc : Nat → List DiffResultElem) (sub : List (String × String))
    (f : Nat → XElem) (k : Nat)
    (hA : ¬ (k % 1000 = 0 ∧ k ≠ 0)) (hr : k % 1000 + 1 < 1000)
    (hk : k < 50000) :
    (midCs tags f k).addChange (midState m0 orc sub f k) "create" (f k)
      = (.ok (midCs tags f (k+1)), midState m0 orc sub f (k+1)) := by
  have hcl : decide (k = 50000) = false := by
    simp only [decide_eq_false_iff_not]
    omega
  have hcl1 : decide (k + 1 = 50000) = false := by
    simp only [decide_eq_false_iff_not]
    omega
  have hdiv : (k + 1) / 1000 = k / 1000 := by omega
  have hmod : (k + 1) % 1000 = k % 1000 + 1 := by omega
  have hlo : 1000 * (k / 1000) + k % 1000 = k := by omega
  have hmidk : midCs tags f k
      = Changeset.mk (some "1") tags true false k (midDiffSet f k) := by
    unfold midCs
    rw [hcl]
  have hdk : midDiffSet f k
      = DiffSet.mk (stampedChunk "1" f (1000 * (k / 1000)) (k % 1000)) [] []
          (k % 1000) false := by
    unfold midDiffSet
    rw [if_neg hA]
  have hstate : ({ midState m0 orc sub f k with
        stampedLog := (midState m0 orc sub f k).stampedLog ++
          [{ f k with changesetAttr := some "1" }] } : MState)
      = midState m0 orc sub f (k + 1) := by
    unfold midState midEvents
    rw [hdiv, if_neg (by omega : ¬ k = 50000),
      if_neg (by omega : ¬ k + 1 = 50000), stampedChunk_succ]
    simp [stampElem]
  have hmidk1 : midCs tags f (k + 1)
      = Changeset.mk (some "1") tags true false (k + 1) (midDiffSet f (k + 1)) := by
    unfold midCs
    rw [hcl1]
  have hdk1 : midDiffSet f (k + 1)
      = DiffSet.mk (stampedChunk "1" f (1000 * (k / 1000)) (k % 1000) ++
          [{ f k with changesetAttr := some "1" }]) [] [] (k % 1000 + 1)
          false := by
    unfold midDiffSet
    rw [if_neg (by omega : ¬ ((k + 1) % 1000 = 0 ∧ k + 1 ≠ 0))]
    rw [hdiv, hmod, stampedChunk_succ, hlo]
    simp [stampElem]
  rw [hmidk, hdk, addChange_open_eq]
  rw [diffSet_add_below _ _ _ _ _ hr]
  show Changeset.afterAdd _ _ = _
  rw [afterAdd_below _ _ _ _ _ (by omega : k + 1 < 50000)]
  rw [hmidk1, hdk1, hstate]

theorem midStep_caseA (tags : List (String × String)) (m0 : IdMapData)
    (orc : Nat → List DiffResultElem) (sub : List (String × String))
    (f : Nat → XElem) (k : Nat)
    (hA : k % 1000 = 0 ∧ k ≠ 0) (hk : k < 50000) :
    (midCs tags f k).addChange (midState m0 orc sub f k) "create" (f k)
      = (.ok (midCs tags f (k+1)), midState m0 orc sub f (k+1)) := by
  have hcl : decide (k = 50000) = false := by
    simp only [decide_eq_false_iff_not]
    omega
  have hcl1 : decide (k + 1 = 50000) = false := by
    simp only [decide_eq_false_iff_not]
    omega
  have hdiv : (k + 1) / 1000 = k / 1000 := by omega
  have hmidk : midCs tags f k
      = Changeset.mk (some "1") tags true false k (midDiffSet f k) := by
    unfold midCs
    rw [hcl]
  have hdk : midDiffSet f k
      = DiffSet.mk (stampedChunk "1" f (k - 1000) 1000) [] [] 1000 true := by
    unfold midDiffSet
    rw [if_pos hA]
  have hstate : ({ midState m0 orc sub f k with
        stampedLog := (midState m0 orc sub f k).stampedLog ++
          [{ f k with changesetAttr := some "1" }] } : MState)
      = midState m0 orc sub f (k + 1) := by
    unfold midState midEvents
    rw [hdiv, if_neg (by omega : ¬ k = 50000),
      if_neg (by omega : ¬ k + 1 = 50000), stampedChunk_succ]
    simp [stampElem]
  have hmidk1 : midCs tags f (k + 1)
      = Changeset.mk (some "1") tags true false (k + 1) (midDiffSet f (k + 1)) := by
    unfold midCs
    rw [hcl1]
  have hdk1 : midDiffSet f (k + 1)
      = DiffSet.mk [{ f k with changesetAttr := some "1" }] [] [] 1 false := by
    unfold midDiffSet
    rw [if_neg (by omega : ¬ ((k + 1) % 1000 = 0 ∧ k + 1 ≠ 0))]
    rw [hdiv, show (k + 1) % 1000 = 1 by omega,
      show 1000 * (k / 1000) = k by omega]
    unfold stampedChunk
    rw [show List.range' k 1 = [k] from rfl]
    simp [stampElem]
  rw [hmidk, hdk, addChange_open_eq]
  have hclosedadd := diffSet_addChange_closed
    (DiffSet.mk (stampedChunk "1" f (k - 1000) 1000) [] [] 1000 true)
    (some "1")
    { midState m0 orc sub f k with
      stampedLog := (midState m0 orc sub f k).stampedLog ++
        [{ f k with changesetAttr := some "1" }] }
    "create" { f k with changesetAttr := some "1" } rfl
  simp only [hclosedadd]
  rw [show DiffSet.new = DiffSet.mk [] [] [] 0 false from rfl]
  rw [diffSet_add_below [] 0 _ _ _ (by omega)]
  show Changeset.afterAdd _ _ = _
  rw [afterAdd_below _ _ _ _ _ (by omega : k + 1 < 50000)]
  rw [hmidk1, hdk1, hstate]
  simp

theorem midStep_caseC1 (tags : List (String × String)) (m0 : IdMapData)
    (orc : Nat → List DiffResultElem) (sub : List (String × String))
    (f : Nat → XElem) (k : Nat)
    (hC : k % 1000 = 999) (hk1 : k + 1 < 50000) :
    (midCs tags f k).addChange (midState m0 orc sub f k) "create" (f k)
      = (.ok (midCs tags f (k+1)), midState m0 orc sub f (k+1)) := by
  have hcl : decide (k = 50000) = false := by
    simp only [decide_eq_false_iff_not]
    omega
  have hcl1 : decide (k + 1 = 50000) = false := by
    simp only [decide_eq_false_iff_not]
    omega
  have hq1 : (k + 1) / 1000 = k / 1000 + 1 := by omega
  have hlo : 1000 * (k / 1000) + 999 = k := by omega
  have hmidk : midCs tags f k
      = Changeset.mk (some "1") tags true false k (midDiffSet f k) := by
    unfold midCs
    rw [hcl]
  have hdk : midDiffSet f k
      = DiffSet.mk (stampedChunk "1" f (1000 * (k / 1000)) 999) [] [] 999
          false := by
    unfold midDiffSet
    rw [if_neg (by omega : ¬ (k % 1000 = 0 ∧ k ≠ 0)), hC]
  have hchunkfull : stampedChunk "1" f (1000 * (k / 1000)) 999 ++
        [{ f k with changesetAttr := some "1" }]
      = stampedChunk "1" f (1000 * (k / 1000)) 1000 := by
    rw [stampedChunk_succ "1" f (1000 * (k / 1000)) 999, hlo]
    simp [stampElem]
  have hmidk1 : midCs tags f (k + 1)
      = Changeset.mk (some "1") tags true false (k + 1) (midDiffSet f (k + 1)) := by
    unfold midCs
    rw [hcl1]
  have hdk1 : midDiffSet f (k + 1)
      = DiffSet.mk (stampedChunk "1" f (1000 * (k / 1000)) 1000) [] [] 1000
          true := by
    unfold midDiffSet
    rw [if_pos (⟨by omega, by omega⟩ : (k + 1) % 1000 = 0 ∧ k + 1 ≠ 0)]
    rw [show k + 1 - 1000 = 1000 * (k / 1000) by omega]
  rw [hmidk, hdk, addChange_open_eq]
  rw [diffSet_add_limit _ _ _ _]
  show Changeset.afterAdd _ _ = _
  rw [afterAdd_below _ _ _ _ _ hk1]
  rw [hmidk1, hdk1, hchunkfull]
  unfold midState midEvents
  rw [hq1, List.range_succ, mAfter_succ,
    if_neg (by omega : ¬ k = 50000), if_neg (by omega : ¬ k + 1 = 50000),
    stampedChunk_succ]
  simp [stampElem]
  refine ⟨?_, ?_⟩
  · rw [stampedChunk_succ "1" f (1000 * (k / 1000)) 999, hlo]
    simp [stampElem]
  · rw [stampedChunk_succ "1" f 0 k]
    simp [stampElem]

theorem midStep_caseC2 (tags : List (String × String)) (m0 : IdMapData)
    (orc : Nat → List DiffResultElem) (sub : List (String × String))
    (f : Nat → XElem) :
    (midCs tags f 49999).addChange (midState m0 orc sub f 49999) "create"
        (f 49999)
      = (.ok (midCs tags f 50000), midState m0 orc sub f 50000) := by
  have hmidk : midCs tags f 49999
      = Changeset.mk (some "1") tags true false 49999 (midDiffSet f 49999) := by
    unfold midCs
    norm_num
  have hdk : midDiffSet f 49999
      = DiffSet.mk (stampedChunk "1" f 49000 999) [] [] 999 false := by
    unfold midDiffSet
    norm_num
  have hmidk1 : midCs tags f 50000
      = Changeset.mk (some "1") tags true true 50000 (midDiffSet f 50000) := by
    unfold midCs
    norm_num
  have hdk1 : midDiffSet f 50000
      = DiffSet.mk (stampedChunk "1" f 49000 1000) [] [] 1000 true := by
    unfold midDiffSet
    norm_num
  have hchunkfull : stampedChunk "1" f 49000 999 ++
        [{ f 49999 with changesetAttr := some "1" }]
      = stampedChunk "1" f 49000 1000 := by
    rw [stampedChunk_succ "1" f 49000 999]
    simp [stampElem]
  rw [hmidk, hdk, addChange_open_eq]
  rw [diffSet_add_limit _ _ _ _]
  show Changeset.afterAdd _ _ = _
  rw [afterAdd_limit _ _ _ _]
  rw [hmidk1, hdk1, hchunkfull]
  unfold midState midEvents
  rw [show (50000 : Nat) / 1000 = 50 from by norm_num,
    show (49999 : Nat) / 1000 = 49 from by norm_num,
    List.range_succ 49, mAfter_succ,
    if_neg (by omega : ¬ (49999 : Nat) = 50000),
    if_pos (rfl : (50000 : Nat) = 50000),
    stampedChunk_succ "1" f 0 49999]
  simp [stampElem]
  have h50 : mAfter m0 orc 50 = processResult (mAfter m0 orc 49) (orc 49) :=
    mAfter_succ m0 orc 49
  have h49 : mAfter m0 orc 49 = processResult (mAfter m0 orc 48) (orc 48) :=
    mAfter_succ m0 orc 48
  rw [h50, h49]

/-- One add of a homogeneous create record advances the mid-run state
by one, whatever the position `k < 50000`. -/
theorem midStep (tags : List (String × String)) (m0 : IdMapData)
    (orc : Nat → List DiffResultElem) (sub : List (String × String))
    (f : Nat → XElem) (k : Nat) (hk : k < 50000) :
    (midCs tags f k).addChange (midState m0 orc sub f k) "create" (f k)
      = (.ok (midCs tags f (k+1)), midState m0 orc sub f (k+1)) := by
  by_cases hA : k % 1000 = 0 ∧ k ≠ 0
  · exact midStep_caseA tags m0 orc sub f k hA hk
  · by_cases hC : k % 1000 = 999
    · by_cases hk1 : k + 1 < 50000
      · exact midStep_caseC1 tags m0 orc sub f k hC hk1
      · have hkeq : k = 49999 := by omega
        subst hkeq
        exact midStep_caseC2 tags m0 orc sub f
    · exact midStep_caseB tags m0 orc sub f k hA (by omega) hk

/-- `Changeset.addChange` on an unopened changeset first opens it. -/
theorem addChange_unopened (c : Changeset) (s : MState) (a : String)
    (item : XElem) (ho : c.opened = false) :
    c.addChange s a item = (c.openCs s).1.addChange (c.openCs s).2 a item := by
  conv_lhs => unfold Changeset.addChange
  conv_rhs => unfold Changeset.addChange
  simp [ho, Changeset.openCs]

/-- `Changeset.open` on a fresh changeset, unfolded. -/
theorem openCs_new (tags : List (String × String)) (s : MState) :
    (Changeset.new tags).openCs s =
      (Changeset.mk (some (toString s.nextCsId)) tags true false 0 DiffSet.new,
        { s with
          events := s.events ++ [NetEvent.changesetCreate (toString s.nextCsId)],
          nextCsId := s.nextCsId + 1 }) := rfl

/-- The fresh changeset, once opened against the initial state, is the
mid-run state at position 0. -/
theorem opened_is_mid0 (tags : List (String × String)) (m0 : IdMapData)
    (orc : Nat → List DiffResultElem) (sub : List (String × String))
    (f : Nat → XElem) :
    (Changeset.mk (some "1") tags true false 0 DiffSet.new
        = midCs tags f 0) ∧
    (({ MState.init m0 orc with
        submittedLog := sub,
        events := [] ++ [NetEvent.changesetCreate "1"],
        nextCsId := 2 } : MState)
        = midState m0 orc sub f 0) := by
  constructor
  · rfl
  · rfl

theorem csAddAll_cons (c : Changeset) (s : MState) (e : XElem)
    (es : List XElem) :
    csAddAll c s (e :: es) =
      (match c.addChange s (e.action.getD "create") e with
      | (.ok c2, s2) => csAddAll c2 s2 es
      | (.error err, s2) => (.error err, s2)) := rfl

theorem csAddAll_append (c : Changeset) (s : MState) (l1 l2 : List XElem) :
    csAddAll c s (l1 ++ l2) =
      (match csAddAll c s l1 with
      | (.ok c2, s2) => csAddAll c2 s2 l2
      | (.error e, s2) => (.error e, s2)) := by
  induction l1 generalizing c s with
  | nil => rfl
  | cons e es ih =>
    rw [List.cons_append, csAddAll_cons, csAddAll_cons]
    rcases h : c.addChange s (e.action.getD "create") e with ⟨res, s2⟩
    rcases res with er | c2
    · simp only [h]
    · simp only [h]
      exact ih c2 s2

/-- The very first add: opening the fresh changeset lands in the
mid-run state at position 1. -/
theorem csFirst (tags : List (String × String)) (m0 : IdMapData)
    (orc : Nat → List DiffResultElem) (f : Nat → XElem) :
    (Changeset.new tags).addChange (MState.init m0 orc) "create" (f 0)
      = (.ok (midCs tags f 1), midState m0 orc [] f 1) := by
  rw [addChange_unopened _ _ _ _ rfl]
  have h0 : (Changeset.new tags).openCs (MState.init m0 orc)
      = (midCs tags f 0, midState m0 orc [] f 0) := by
    unfold Changeset.openCs Changeset.new midCs midState midDiffSet
      midEvents mAfter stampedChunk MState.init
    have htos : toString 1 = "1" := rfl
    simp [htos, DiffSet.new]
  rw [h0]
  exact midStep tags m0 orc [] f 0 (by omega)

/-- Running `k ≤ 50000` homogeneous creates through `csAddAll` from a
fresh changeset reaches the mid-run state at position `k`. -/
theorem csRun (tags : List (String × String)) (m0 : IdMapData)
    (orc : Nat → List DiffResultElem) (f : Nat → XElem)
    (hf : ∀ i, (f i).action = none) :
    ∀ k, 1 ≤ k → k ≤ 50000 →
      csAddAll (Changeset.new tags) (MState.init m0 orc)
          ((List.range k).map f)
        = (.ok (midCs tags f k), midState m0 orc [] f k) := by
  intro k
  induction k with
  | zero => intro h1 _; omega
  | succ n ih =>
    intro _ hle
    rcases Nat.eq_zero_or_pos n with hn | hn
    · subst hn
      have hr : (List.range 1).map f = [f 0] := rfl
      rw [hr, csAddAll_cons, hf 0]
      simp only [Option.getD_none]
      rw [csFirst tags m0 orc f]
      rfl
    · rw [List.range_succ, List.map_append, csAddAll_append,
        ih (by omega) (by omega)]
      show csAddAll (midCs tags f n) (midState m0 orc [] f n) [f n] = _
      rw [csAddAll_cons, hf n]
      simp only [Option.getD_none]
      rw [midStep tags m0 orc [] f n (by omega)]
      rfl

/-- Closing the changeset after 2500 adds uploads the 500-record tail
chunk and then issues the close request. -/
theorem close_at_2500 (tags : List (String × String)) (m0 : IdMapData)
    (orc : Nat → List DiffResultElem) (f : Nat → XElem) :
    ((midCs tags f 2500).close (midState m0 orc [] f 2500)).2.events
      = midEvents f 2500
          ++ [NetEvent.diffUpload "1" (stampedChunk "1" f 2000 500) [] [],
              NetEvent.changesetClose "1"] := by
  have hds : midDiffSet f 2500 =
      DiffSet.mk (stampedChunk "1" f 2000 500) [] [] 500 false := by
    unfold midDiffSet
    norm_num
  unfold Changeset.close
  rw [show midCs tags f 2500 =
      Changeset.mk (some "1") tags true false 2500 (midDiffSet f 2500) by
    unfold midCs; norm_num]
  rw [hds]
  unfold DiffSet.upload
  norm_num [midState]

theorem stampedChunk_append (cid : String) (f : Nat → XElem)
    (lo a b : Nat) :
    stampedChunk cid f lo (a + b)
      = stampedChunk cid f lo a ++ stampedChunk cid f (lo + a) b := by
  unfold stampedChunk
  rw [← List.map_append]
  have h := List.range'_append lo a b 1
  rw [one_mul] at h
  rw [Nat.add_comm b a] at h
  rw [← h]

/-- C2: with the batch limit at 1000, running 2500 homogeneous create
records through one changeset (`csAddAll` + `close`) issues exactly
three diff uploads — of 1000, 1000 and 500 records — and every uploaded
batch carries its records in the original insertion order (the three
payloads concatenate back to the stamped input sequence). -/
theorem C2_batch_boundaries (tags : List (String × String))
    (m0 : IdMapData) (orc : Nat → List DiffResultElem) (f : Nat → XElem)
    (hf : ∀ i, (f i).action = none) :
    ∃ c s, csAddAll (Changeset.new tags) (MState.init m0 orc)
        ((List.range 2500).map f) = (.ok c, s)
      ∧ ((c.close s).2).events =
          [NetEvent.changesetCreate "1",
           NetEvent.diffUpload "1" (stampedChunk "1" f 0 1000) [] [],
           NetEvent.diffUpload "1" (stampedChunk "1" f 1000 1000) [] [],
           NetEvent.diffUpload "1" (stampedChunk "1" f 2000 500) [] [],
           NetEvent.changesetClose "1"]
      ∧ (stampedChunk "1" f 0 1000).length = 1000
      ∧ (stampedChunk "1" f 1000 1000).length = 1000
      ∧ (stampedChunk "1" f 2000 500).length = 500
      ∧ stampedChunk "1" f 0 1000
          ++ (stampedChunk "1" f 1000 1000 ++ stampedChunk "1" f 2000 500)
          = (List.range 2500).map (fun i => stampElem "1" (f i)) := by
  refine ⟨midCs tags f 2500, midState m0 orc [] f 2500,
    csRun tags m0 orc f hf 2500 (by omega) (by omega), ?_, ?_, ?_, ?_, ?_⟩
  · rw [close_at_2500 tags m0 orc f]
    unfold midEvents
    norm_num [List.range_succ]
  · simp [stampedChunk]
  · simp [stampedChunk]
  · simp [stampedChunk]
  · have h1 : stampedChunk "1" f 1000 1000 ++ stampedChunk "1" f 2000 500
        = stampedChunk "1" f 1000 1500 := by
      have h := stampedChunk_append "1" f 1000 1000 500
      norm_num at h
      exact h.symm
    have h2 : stampedChunk "1" f 0 1000 ++ stampedChunk "1" f 1000 1500
        = stampedChunk "1" f 0 2500 := by
      have h := stampedChunk_append "1" f 0 1000 1500
      norm_num at h
      exact h.symm
    rw [h1, h2]
    unfold stampedChunk
    rw [List.range_eq_range']

theorem C2_batch_boundaries_witness :
    (∀ i, (mkCreateElem i).action = none)
    ∧ (∃ c s, csAddAll (Changeset.new []) (MState.init IdMapData.empty oracle0)
        ((List.range 2500).map mkCreateElem) = (.ok c, s)
      ∧ ((c.close s).2).events =
          [NetEvent.changesetCreate "1",
           NetEvent.diffUpload "1" (stampedChunk "1" mkCreateElem 0 1000) [] [],
           NetEvent.diffUpload "1" (stampedChunk "1" mkCreateElem 1000 1000) [] [],
           NetEvent.diffUpload "1" (stampedChunk "1" mkCreateElem 2000 500) [] [],
           NetEvent.changesetClose "1"]
      ∧ (stampedChunk "1" mkCreateElem 0 1000).length = 1000
      ∧ (stampedChunk "1" mkCreateElem 1000 1000).length = 1000
      ∧ (stampedChunk "1" mkCreateElem 2000 500).length = 500
      ∧ stampedChunk "1" mkCreateElem 0 1000
          ++ (stampedChunk "1" mkCreateElem 1000 1000
              ++ stampedChunk "1" mkCreateElem 2000 500)
          = (List.range 2500).map (fun i => stampElem "1" (mkCreateElem i))) :=
  ⟨fun _ => rfl,
   C2_batch_boundaries [] IdMapData.empty oracle0 mkCreateElem (fun _ => rfl)⟩

theorem procAddAll_cons (p : ImportProcessor) (s : MState) (e : XElem)
    (es : List XElem) :
    procAddAll p s (e :: es) =
      (match p.addToChangeset s e with
      | (.ok p2, s2) => procAddAll p2 s2 es
      | (.error err, s2) => (.error err, s2)) := rfl

theorem procAddAll_append (p : ImportProcessor) (s : MState)
    (l1 l2 : List XElem) :
    procAddAll p s (l1 ++ l2) =
      (match procAddAll p s l1 with
      | (.ok p2, s2) => procAddAll p2 s2 l2
      | (.error e, s2) => (.error e, s2)) := by
  induction l1 generalizing p s with
  | nil => rfl
  | cons e es ih =>
    rw [List.cons_append, procAddAll_cons, procAddAll_cons]
    rcases h : p.addToChangeset s e with ⟨res, s2⟩
    rcases res with er | p2
    · simp only [h]
    · simp only [h]
      exact ih p2 s2

/-- One `addToChangeset` in the middle of the run: records the submission
and advances the changeset by one position. -/
theorem procStep (tags : List (String × String)) (m0 : IdMapData)
    (orc : Nat → List DiffResultElem) (sub : List (String × String))
    (f : Nat → XElem) (pp : List Changeset) (k : Nat) (hk : k < 50000)
    (haction : (f k).action = none) :
    (ImportProcessor.mk (midCs tags f k) tags pp).addToChangeset
        (midState m0 orc sub f k) (f k)
      = (.ok (ImportProcessor.mk (midCs tags f (k+1)) tags pp),
          midState m0 orc (sub ++ [((f k).tag, (f k).id)]) f (k+1)) := by
  unfold ImportProcessor.addToChangeset
  rw [haction]
  simp only [Option.getD_none]
  have hsub : ({ midState m0 orc sub f k with
      submittedLog := (midState m0 orc sub f k).submittedLog
        ++ [((f k).tag, (f k).id)] } : MState)
      = midState m0 orc (sub ++ [((f k).tag, (f k).id)]) f k := by
    unfold midState
    rfl
  rw [hsub]
  rw [midStep tags m0 orc (sub ++ [((f k).tag, (f k).id)]) f k hk]

/-- The first `addToChangeset`: records the submission, opens the fresh
changeset and lands in the mid-run state at position 1. -/
theorem procFirst (tags : List (String × String)) (m0 : IdMapData)
    (orc : Nat → List DiffResultElem) (f : Nat → XElem)
    (haction : (f 0).action = none) :
    (ImportProcessor.new tags).addToChangeset (MState.init m0 orc) (f 0)
      = (.ok (ImportProcessor.mk (midCs tags f 1) tags []),
          midState m0 orc (subPrefix f 1) f 1) := by
  unfold ImportProcessor.addToChangeset ImportProcessor.new
  rw [haction]
  simp only [Option.getD_none]
  have hsub : ({ MState.init m0 orc with
      submittedLog := (MState.init m0 orc).submittedLog
        ++ [((f 0).tag, (f 0).id)] } : MState)
      = { MState.init m0 orc with submittedLog := subPrefix f 1 } := by
    unfold MState.init subPrefix
    rfl
  rw [hsub]
  rw [addChange_unopened _ _ _ _ rfl]
  have h0 : (Changeset.new tags).openCs
        { MState.init m0 orc with submittedLog := subPrefix f 1 }
      = (midCs tags f 0, midState m0 orc (subPrefix f 1) f 0) := by
    unfold Changeset.openCs Changeset.new midCs midState midDiffSet
      midEvents mAfter stampedChunk MState.init
    have htos : toString 1 = "1" := rfl
    simp [htos, DiffSet.new]
  rw [h0]
  rw [midStep tags m0 orc (subPrefix f 1) f 0 (by omega)]

/-- Running `k ≤ 50000` creates through the orchestrator reaches the
mid-run state at position `k`, with the full submission log. -/
theorem procRun (tags : List (String × String)) (m0 : IdMapData)
    (orc : Nat → List DiffResultElem) (f : Nat → XElem)
    (hf : ∀ i, (f i).action = none) :
    ∀ k, 1 ≤ k → k ≤ 50000 →
      procAddAll (ImportProcessor.new tags) (MState.init m0 orc)
          ((List.range k).map f)
        = (.ok (ImportProcessor.mk (midCs tags f k) tags []),
            midState m0 orc (subPrefix f k) f k) := by
  intro k
  induction k with
  | zero => intro h1 _; omega
  | succ n ih =>
    intro _ hle
    rcases Nat.eq_zero_or_pos n with hn | hn
    · subst hn
      have hr : (List.range 1).map f = [f 0] := rfl
      rw [hr, procAddAll_cons, procFirst tags m0 orc f (hf 0)]
      rfl
    · rw [List.range_succ, List.map_append, procAddAll_append,
        ih (by omega) (by omega)]
      show procAddAll (ImportProcessor.mk (midCs tags f n) tags [])
          (midState m0 orc (subPrefix f n) f n) [f n] = _
      rw [procAddAll_cons,
        procStep tags m0 orc (subPrefix f n) f [] n (by omega) (hf n)]
      have hsp : subPrefix f n ++ [((f n).tag, (f n).id)]
          = subPrefix f (n + 1) := by
        unfold subPrefix
        rw [List.range_succ, List.map_append]
        rfl
      rw [hsp]
      rfl

/-- `Changeset.addChange` on an opened-and-closed changeset raises
`ChangesetClosed` and leaves the state untouched. -/
theorem addChange_closed_opened (cid : Option String)
    (tags : List (String × String)) (cnt : Nat) (d : DiffSet) (s : MState)
    (a : String) (item : XElem) :
    (Changeset.mk cid tags true true cnt d).addChange s a item
      = (.error .changesetClosed, s) := by
  unfold Changeset.addChange
  simp

/-- Adding one create record to a brand-new changeset: opens it, stamps
the record with the fresh server id, stores it in the diff set. -/
theorem addChange_fresh (tags : List (String × String)) (s : MState)
    (item : XElem) :
    (Changeset.new tags).addChange s "create" item
      = (.ok (Changeset.mk (some (toString s.nextCsId)) tags true false 1
            (DiffSet.mk
              [{ item with changesetAttr := some (toString s.nextCsId) }]
              [] [] 1 false)),
          { s with
            events := s.events
              ++ [NetEvent.changesetCreate (toString s.nextCsId)],
            nextCsId := s.nextCsId + 1,
            stampedLog := s.stampedLog
              ++ [{ item with changesetAttr := some (toString s.nextCsId) }] }) := by
  rw [addChange_unopened _ _ _ _ rfl, openCs_new]
  show (Changeset.mk (some (toString s.nextCsId)) tags true false 0
      DiffSet.new).addChange
      { s with
        events := s.events
          ++ [NetEvent.changesetCreate (toString s.nextCsId)],
        nextCsId := s.nextCsId + 1 } "create" item = _
  rw [addChange_open_eq]
  rw [show DiffSet.new = DiffSet.mk [] [] [] 0 false from rfl]
  rw [diffSet_add_below [] 0 _ _ _ (by omega)]
  show Changeset.afterAdd _ _ = _
  rw [afterAdd_below _ _ _ _ _ (by omega)]
  rfl

/-- The boundary add at position 50000: the current changeset is closed,
`addToChangeset` catches `ChangesetClosed`, opens changeset `2` and the
boundary record lands there. -/
theorem procBoundary (tags : List (String × String)) (m0 : IdMapData)
    (orc : Nat → List DiffResultElem) (sub : List (String × String))
    (f : Nat → XElem) (pp : List Changeset)
    (haction : (f 50000).action = none) :
    (ImportProcessor.mk (midCs tags f 50000) tags pp).addToChangeset
        (midState m0 orc sub f 50000) (f 50000)
      = (.ok (ImportProcessor.mk
            (Changeset.mk (some "2") tags true false 1
              (DiffSet.mk [stampElem "2" (f 50000)] [] [] 1 false))
            tags (pp ++ [midCs tags f 50000])),
          { events := midEvents f 50000 ++ [NetEvent.changesetCreate "2"],
            idMap := mAfter m0 orc 50, nextCsId := 3, oracle := orc,
            uploadCount := 50,
            stampedLog := stampedChunk "1" f 0 50000
              ++ [stampElem "2" (f 50000)],
            submittedLog := sub ++ [((f 50000).tag, (f 50000).id)] }) := by
  unfold ImportProcessor.addToChangeset
  rw [haction]
  simp only [Option.getD_none]
  have hsub : ({ midState m0 orc sub f 50000 with
      submittedLog := (midState m0 orc sub f 50000).submittedLog
        ++ [((f 50000).tag, (f 50000).id)] } : MState)
      = midState m0 orc (sub ++ [((f 50000).tag, (f 50000).id)]) f 50000 := by
    unfold midState
    rfl
  rw [hsub]
  have hcs : (midCs tags f 50000).addChange
        (midState m0 orc (sub ++ [((f 50000).tag, (f 50000).id)]) f 50000)
        "create" (f 50000)
      = (.error .changesetClosed,
          midState m0 orc (sub ++ [((f 50000).tag, (f 50000).id)]) f 50000) := by
    rw [show midCs tags f 50000
        = Changeset.mk (some "1") tags true true 50000 (midDiffSet f 50000) by
      unfold midCs; norm_num]
    rw [addChange_closed_opened]
  rw [hcs]
  dsimp only [ImportProcessor.createChangeset]
  rw [addChange_fresh tags _ (f 50000)]
  have hncs : (midState m0 orc (sub ++ [((f 50000).tag, (f 50000).id)])
      f 50000).nextCsId = 2 := rfl
  rw [hncs]
  have htos : toString 2 = "2" := rfl
  rw [htos]
  rfl

/-- C3: with the transaction limit at 50000, running 50001 edits through
the orchestrator closes exactly one changeset mid-run and opens a second
one; the first changeset received exactly 50000 edits and the boundary
edit (the 50001st) lands in the second changeset. -/
theorem C3_transaction_rollover (tags : List (String × String))
    (m0 : IdMapData) (orc : Nat → List DiffResultElem) (f : Nat → XElem)
    (hf : ∀ i, (f i).action = none) :
    ∃ p s, procAddAll (ImportProcessor.new tags) (MState.init m0 orc)
        ((List.range 50001).map f) = (.ok p, s)
      ∧ s.events.countP (fun e => e.isChangesetClose) = 1
      ∧ s.events.countP (fun e => e.isChangesetCreate) = 2
      ∧ p.pastChangesets = [midCs tags f 50000]
      ∧ (midCs tags f 50000).itemcount = 50000
      ∧ (midCs tags f 50000).closed = true
      ∧ p.current_changeset.id = some "2"
      ∧ p.current_changeset.itemcount = 1
      ∧ p.current_changeset.currentDiffSet.elems_create
          = [stampElem "2" (f 50000)] := by
  have hsp : subPrefix f 50000 ++ [((f 50000).tag, (f 50000).id)]
      = subPrefix f 50001 := by
    unfold subPrefix
    conv_rhs => rw [List.range_succ, List.map_append]
    simp
  have hall : procAddAll (ImportProcessor.new tags) (MState.init m0 orc)
      ((List.range 50001).map f)
      = (.ok (ImportProcessor.mk
            (Changeset.mk (some "2") tags true false 1
              (DiffSet.mk [stampElem "2" (f 50000)] [] [] 1 false))
            tags [midCs tags f 50000]),
          { events := midEvents f 50000 ++ [NetEvent.changesetCreate "2"],
            idMap := mAfter m0 orc 50, nextCsId := 3, oracle := orc,
            uploadCount := 50,
            stampedLog := stampedChunk "1" f 0 50000
              ++ [stampElem "2" (f 50000)],
            submittedLog := subPrefix f 50001 }) := by
    have h50001 : (List.range 50001).map f
        = (List.range 50000).map f ++ [f 50000] := by
      rw [List.range_succ, List.map_append]
      simp
    rw [h50001, procAddAll_append,
      procRun tags m0 orc f hf 50000 (by omega) (by omega)]
    show procAddAll (ImportProcessor.mk (midCs tags f 50000) tags [])
        (midState m0 orc (subPrefix f 50000) f 50000) [f 50000] = _
    rw [procAddAll_cons,
      procBoundary tags m0 orc (subPrefix f 50000) f [] (hf 50000)]
    rw [hsp]
    simp
    rfl
  have hmev : midEvents f 50000
      = NetEvent.changesetCreate "1" ::
          ((List.range 50).map fun j =>
            NetEvent.diffUpload "1" (stampedChunk "1" f (1000*j) 1000) [] [])
          ++ [NetEvent.changesetClose "1"] := by
    unfold midEvents
    norm_num
  refine ⟨_, _, hall, ?_, ?_, rfl, rfl, rfl, rfl, rfl, rfl⟩
  · show (midEvents f 50000 ++ [NetEvent.changesetCreate "2"]).countP
        (fun e => e.isChangesetClose) = 1
    rw [hmev]
    simp [List.countP_append, List.countP_map, List.countP_cons,
      NetEvent.isChangesetClose, Function.comp]
  · show (midEvents f 50000 ++ [NetEvent.changesetCreate "2"]).countP
        (fun e => e.isChangesetCreate) = 2
    rw [hmev]
    simp [List.countP_append, List.countP_map, List.countP_cons,
      NetEvent.isChangesetCreate, Function.comp]

theorem C3_transaction_rollover_witness :
    (∀ i, (mkCreateElem i).action = none)
    ∧ (∃ p s, procAddAll (ImportProcessor.new [])
        (MState.init IdMapData.empty oracle0)
        ((List.range 50001).map mkCreateElem) = (.ok p, s)
      ∧ s.events.countP (fun e => e.isChangesetClose) = 1
      ∧ s.events.countP (fun e => e.isChangesetCreate) = 2
      ∧ p.pastChangesets = [midCs [] mkCreateElem 50000]
      ∧ (midCs [] mkCreateElem 50000).itemcount = 50000
      ∧ (midCs [] mkCreateElem 50000).closed = true
      ∧ p.current_changeset.id = some "2"
      ∧ p.current_changeset.itemcount = 1
      ∧ p.current_changeset.currentDiffSet.elems_create
          = [stampElem "2" (mkCreateElem 50000)]) :=
  ⟨fun _ => rfl,
   C3_transaction_rollover [] IdMapData.empty oracle0 mkCreateElem
     (fun _ => rfl)⟩

/-!
## The dependency resolver (claim C1)
-/

theorem countP_impl_le (p q : String → Bool) (l : List String)
    (h : ∀ x, p x = true → q x = true) : l.countP p ≤ l.countP q := by
  induction l with
  | nil => simp
  | cons x xs ih =>
    rw [List.countP_cons, List.countP_cons]
    by_cases hx : p x = true
    · rw [hx, h x hx]
      omega
    · have : (if p x = true then 1 else 0) = 0 := by simp [hx]
      rw [this]
      omega

theorem unvisited_le (g : Pygraph) (v v' : List String)
    (h : ∀ x, x ∈ v → x ∈ v') : unvisited g v' ≤ unvisited g v := by
  unfold unvisited
  rw [← List.countP_eq_length_filter, ← List.countP_eq_length_filter]
  apply countP_impl_le
  intro x hx
  simp only [decide_eq_true_eq] at hx ⊢
  intro hv
  exact hx (h x hv)

theorem countP_snoc_lt (l v : List String) (n : String)
    (hn : n ∈ l) (hv : n ∉ v) :
    l.countP (fun y => decide (y ∉ v ++ [n]))
      < l.countP (fun y => decide (y ∉ v)) := by
  induction l with
  | nil => cases hn
  | cons x xs ih =>
    rw [List.countP_cons, List.countP_cons]
    rcases List.mem_cons.1 hn with hx | hx
    · subst hx
      have h1 : (decide (n ∉ v ++ [n])) = false := by simp
      have h2 : (decide (n ∉ v)) = true := by simpa using hv
      rw [h1, h2]
      have hmono := countP_impl_le (fun y => decide (y ∉ v ++ [n]))
        (fun y => decide (y ∉ v)) xs ?_
      · have e1 : (if (false = true) then (1:Nat) else 0) = 0 := rfl
        have e2 : (if (true = true) then (1:Nat) else 0) = 1 := rfl
        rw [e1, e2]
        omega
      · intro y hy
        simp only [decide_eq_true_eq] at hy ⊢
        intro hvy
        exact hy (List.mem_append_left _ hvy)
    · have hrec := ih hx
      have hle : (if decide (x ∉ v ++ [n]) = true then 1 else 0)
          ≤ (if decide (x ∉ v) = true then 1 else 0) := by
        by_cases hxv : decide (x ∉ v ++ [n]) = true
        · have h2 : decide (x ∉ v) = true := by
            simp only [decide_eq_true_eq] at hxv ⊢
            intro hvx
            exact hxv (List.mem_append_left _ hvx)
          rw [if_pos hxv, if_pos h2]
        · rw [if_neg hxv]
          exact Nat.zero_le _
      omega

theorem unvisited_snoc_lt (g : Pygraph) (v : List String) (n : String)
    (hn : n ∈ g.nodesList) (hv : n ∉ v) :
    unvisited g (v ++ [n]) < unvisited g v := by
  unfold unvisited
  rw [← List.countP_eq_length_filter, ← List.countP_eq_length_filter]
  exact countP_snoc_lt g.nodesList v n hn hv

theorem unvisited_le_card (g : Pygraph) :
    unvisited g [] ≤ g.nodesList.length := by
  unfold unvisited
  exact List.length_filter_le _ _

theorem Reaches.snoc {g : Pygraph} {a b c : String}
    (h : Reaches g a b) (he : c ∈ g.node_neighbors b) : Reaches g a c := by
  induction h with
  | refl x => exact Reaches.step he (Reaches.refl c)
  | step hab _ ih => exact Reaches.step hab (ih he)

theorem reaches_rank {g : Pygraph} {rnk : String → Nat}
    (hrk : rankOk g rnk) {u w : String} (h : Reaches g u w) :
    rnk w ≤ rnk u := by
  induction h with
  | refl x => exact Nat.le_refl _
  | step hab hr ih =>
    rename_i a b c
    by_cases hrr : a = "root" ∧ b = "root"
    · rcases hrr with ⟨h1, h2⟩
      subst h1
      subst h2
      exact ih
    · exact Nat.le_of_lt (Nat.lt_of_le_of_lt ih (hrk a b hab hrr))

theorem sublist_pair_append (b a : String) (l1 l2 : List String)
    (hb : b ∈ l1) (ha : a ∈ l2) : [b, a].Sublist (l1 ++ l2) := by
  have h1 : [b].Sublist l1 := List.singleton_sublist.2 hb
  have h2 : [a].Sublist l2 := List.singleton_sublist.2 ha
  exact List.Sublist.append h1 h2

theorem sublist_pair_snoc (b a : String) (l : List String)
    (hb : b ∈ l) : [b, a].Sublist (l ++ [a]) :=
  sublist_pair_append b a l [a] hb (List.mem_singleton.2 rfl)

theorem add_node_spec (g : Pygraph) (n : String) (g' : Pygraph)
    (h : g.add_node n = some g') :
    n ∉ g.nodesList ∧ g'.nodesList = g.nodesList ++ [n] ∧
    g'.node_neighbors n = [] ∧ g'.node_incidence n = [] ∧
    (∀ u, u ≠ n → g'.node_neighbors u = g.node_neighbors u) ∧
    (∀ u, u ≠ n → g'.node_incidence u = g.node_incidence u) := by
  unfold Pygraph.add_node at h
  by_cases hn : n ∈ g.nodesList
  · rw [if_pos hn] at h
    cases h
  · rw [if_neg hn] at h
    injection h with h
    subst h
    refine ⟨hn, rfl, by simp, by simp, ?_, ?_⟩
    · intro u hu
      simp [hu]
    · intro u hu
      simp [hu]

theorem add_edge_spec (g : Pygraph) (u v : String) (g' : Pygraph)
    (h : g.add_edge u v = some g') :
    u ∈ g.nodesList ∧ g'.nodesList = g.nodesList ∧
    (∀ a b, b ∈ g'.node_neighbors a ↔
      b ∈ g.node_neighbors a ∨ (a = u ∧ b = v)) ∧
    (v ∈ g.nodesList ∨ v ∈ g.node_neighbors u) := by
  unfold Pygraph.add_edge at h
  by_cases h1 : u ∉ g.nodesList
  · rw [if_pos h1] at h
    cases h
  · rw [if_neg h1] at h
    push_neg at h1
    by_cases h2 : v ∈ g.node_neighbors u
    · rw [if_pos h2] at h
      injection h with h
      subst h
      refine ⟨h1, rfl, ?_, Or.inr h2⟩
      intro a b
      constructor
      · exact Or.inl
      · rintro (hb | ⟨rfl, rfl⟩)
        · exact hb
        · exact h2
    · rw [if_neg h2] at h
      by_cases h3 : v ∉ g.nodesList
      · rw [if_pos h3] at h
        cases h
      · rw [if_neg h3] at h
        push_neg at h3
        injection h with h
        subst h
        refine ⟨h1, rfl, ?_, Or.inl h3⟩
        intro a b
        constructor
        · intro hb
          simp only at hb
          by_cases ha : a = u
          · subst ha
            rw [if_pos rfl] at hb
            rcases List.mem_append.1 hb with hb | hb
            · exact Or.inl hb
            · exact Or.inr ⟨rfl, List.mem_singleton.1 hb⟩
          · rw [if_neg ha] at hb
            exact Or.inl hb
        · intro hb
          simp only
          rcases hb with hb | ⟨rfl, rfl⟩
          · by_cases ha : a = u
            · subst ha
              rw [if_pos rfl]
              exact List.mem_append_left _ hb
            · rw [if_neg ha]
              exact hb
          · rw [if_pos rfl]
            exact List.mem_append_right _ (List.mem_singleton.2 rfl)

theorem add_edge_WF (g : Pygraph) (u v : String) (g' : Pygraph)
    (hwf : g.WF) (h : g.add_edge u v = some g') : g'.WF := by
  unfold Pygraph.add_edge at h
  by_cases h1 : u ∉ g.nodesList
  · rw [if_pos h1] at h
    cases h
  · rw [if_neg h1] at h
    push_neg at h1
    by_cases h2 : v ∈ g.node_neighbors u
    · rw [if_pos h2] at h
      injection h with h
      subst h
      exact hwf
    · rw [if_neg h2] at h
      by_cases h3 : v ∉ g.nodesList
      · rw [if_pos h3] at h
        cases h
      · rw [if_neg h3] at h
        push_neg at h3
        injection h with h
        subst h
        obtain ⟨hmir, hend⟩ := hwf
        constructor
        · intro a b
          simp only
          by_cases hau : a = u <;> by_cases hbv : b = v
          · rw [if_pos hau, if_pos hbv, hau, hbv]
            simp
          · rw [if_pos hau, if_neg hbv, hau]
            rw [List.mem_append]
            constructor
            · rintro (hb | hb)
              · exact (hmir u b).1 hb
              · exact absurd (List.mem_singleton.1 hb) hbv
            · intro hb
              exact Or.inl ((hmir u b).2 hb)
          · rw [if_neg hau, if_pos hbv, hbv]
            rw [List.mem_append]
            constructor
            · intro hb
              exact Or.inl ((hmir a v).1 hb)
            · rintro (hb | hb)
              · exact (hmir a v).2 hb
              · exact absurd (List.mem_singleton.1 hb) hau
          · rw [if_neg hau, if_neg hbv]
            exact hmir a b
        · intro a b hb
          simp only at hb
          by_cases hau : a = u
          · rw [if_pos hau] at hb
            rcases List.mem_append.1 hb with hb2 | hb2
            · have := hend u b hb2
              rw [hau]
              exact ⟨this.1, this.2⟩
            · rw [hau, List.mem_singleton.1 hb2]
              exact ⟨h1, h3⟩
          · rw [if_neg hau] at hb
            exact hend a b hb

theorem add_node_WF (g : Pygraph) (n : String) (g' : Pygraph)
    (hwf : g.WF) (h : g.add_node n = some g') : g'.WF := by
  obtain ⟨hfresh, hnodes, hnbn, hincn, hnb, hinc⟩ := add_node_spec g n g' h
  obtain ⟨hmir, hend⟩ := hwf
  constructor
  · intro a b
    by_cases ha : a = n <;> by_cases hb : b = n
    · rw [ha, hb, hnbn, hincn]
    · rw [ha, hnbn, hinc b hb]
      constructor
      · intro hx
        cases hx
      · intro hx
        exact absurd (hend n b ((hmir n b).2 hx)).1 hfresh
    · rw [hb, hincn, hnb a ha]
      constructor
      · intro hx
        exact absurd (hend a n hx).2 hfresh
      · intro hx
        cases hx
    · rw [hnb a ha, hinc b hb]
      exact hmir a b
  · intro a b hb
    by_cases ha : a = n
    · rw [ha, hnbn] at hb
      cases hb
    · rw [hnb a ha] at hb
      have := hend a b hb
      rw [hnodes]
      exact ⟨List.mem_append_left _ this.1, List.mem_append_left _ this.2⟩

theorem add_nodes_spec : ∀ (ks : List String) (g g' : Pygraph),
    g.add_nodes ks = some g' →
    (∀ u, g.node_neighbors u = []) → (∀ u, g.node_incidence u = []) →
    g'.nodesList = g.nodesList ++ ks ∧
    (∀ u, g'.node_neighbors u = []) ∧ (∀ u, g'.node_incidence u = [])
  | [], g, g', h, hnb, hinc => by
    injection h with h
    subst h
    exact ⟨by simp, hnb, hinc⟩
  | n :: ks, g, g', h, hnb, hinc => by
    unfold Pygraph.add_nodes at h
    rcases hstep : g.add_node n with _ | g1
    · rw [hstep] at h
      cases h
    · rw [hstep] at h
      obtain ⟨hfresh, hnodes, hnbn, hincn, hnb1, hinc1⟩ :=
        add_node_spec g n g1 hstep
      have hnb1all : ∀ u, g1.node_neighbors u = [] := by
        intro u
        by_cases hu : u = n
        · rw [hu, hnbn]
        · rw [hnb1 u hu, hnb u]
      have hinc1all : ∀ u, g1.node_incidence u = [] := by
        intro u
        by_cases hu : u = n
        · rw [hu, hincn]
        · rw [hinc1 u hu, hinc u]
      obtain ⟨hn2, hnb2, hinc2⟩ := add_nodes_spec ks g1 g' h hnb1all hinc1all
      refine ⟨?_, hnb2, hinc2⟩
      rw [hn2, hnodes]
      simp

theorem addMemberEdges_spec : ∀ (ms : List Member) (g : Pygraph)
    (rid : String) (g' : Pygraph),
    addMemberEdges g rid ms = some g' → g.WF →
    g'.WF ∧ g'.nodesList = g.nodesList ∧
    (∀ a b, b ∈ g'.node_neighbors a → b ∈ g.node_neighbors a ∨
      (a = rid ∧ ∃ mem ∈ ms, mem.mtype = "relation" ∧ mem.ref = some b)) ∧
    (∀ u v, v ∈ g.node_neighbors u → v ∈ g'.node_neighbors u) ∧
    (∀ mem ∈ ms, mem.mtype = "relation" → ∀ b, mem.ref = some b →
      b ∈ g'.node_neighbors rid ∧ b ∈ g.nodesList ∧ rid ∈ g.nodesList)
  | [], g, rid, g', h, hwf => by
    injection h with h
    subst h
    exact ⟨hwf, rfl, fun a b hb => Or.inl hb, fun u v hv => hv,
      fun mem hmem => absurd hmem (List.not_mem_nil mem)⟩
  | mem :: ms, g, rid, g', h, hwf => by
    unfold addMemberEdges at h
    by_cases hty : mem.mtype = "relation"
    · rw [if_pos hty] at h
      rcases href : mem.ref with _ | r
      · rw [href] at h
        cases h
      · rw [href] at h
        simp only at h
        rcases hstep : g.add_edge rid r with _ | g1
        · rw [hstep] at h
          cases h
        · rw [hstep] at h
          simp only at h
          obtain ⟨hrid, hnodes1, hnb1, hvnode⟩ := add_edge_spec g rid r g1 hstep
          have hwf1 := add_edge_WF g rid r g1 hwf hstep
          obtain ⟨hwf2, hnodes2, hchar2, hmono2, hmem2⟩ :=
            addMemberEdges_spec ms g1 rid g' h hwf1
          have hrnode : r ∈ g.nodesList := by
            rcases hvnode with hv | hv
            · exact hv
            · exact (hwf.2 rid r hv).2
          refine ⟨hwf2, by rw [hnodes2, hnodes1], ?_, ?_, ?_⟩
          · intro a b hb
            rcases hchar2 a b hb with hb1 | ⟨rfl, m2, hm2, hty2, href2⟩
            · rcases (hnb1 a b).1 hb1 with hb2 | ⟨rfl, rfl⟩
              · exact Or.inl hb2
              · exact Or.inr ⟨rfl, mem, List.mem_cons_self _ _, hty, href⟩
            · exact Or.inr ⟨rfl, m2, List.mem_cons_of_mem _ hm2, hty2, href2⟩
          · intro u v hv
            exact hmono2 u v ((hnb1 u v).2 (Or.inl hv))
          · intro m2 hm2 hty2 b hb2
            rcases List.mem_cons.1 hm2 with rfl | hm2
            · have hb3 : r = b := by
                rw [href] at hb2
                injection hb2
              subst hb3
              exact ⟨hmono2 rid r ((hnb1 rid r).2 (Or.inr ⟨rfl, rfl⟩)),
                hrnode, hrid⟩
            · have := hmem2 m2 hm2 hty2 b hb2
              rw [hnodes1] at this
              exact this
    · rw [if_neg hty] at h
      obtain ⟨hwf2, hnodes2, hchar2, hmono2, hmem2⟩ :=
        addMemberEdges_spec ms g rid g' h hwf
      refine ⟨hwf2, hnodes2, ?_, hmono2, ?_⟩
      · intro a b hb
        rcases hchar2 a b hb with hb1 | ⟨rfl, m2, hm2, hty2, href2⟩
        · exact Or.inl hb1
        · exact Or.inr ⟨rfl, m2, List.mem_cons_of_mem _ hm2, hty2, href2⟩
      · intro m2 hm2 hty2 b hb2
        rcases List.mem_cons.1 hm2 with rfl | hm2
        · exact absurd hty2 hty
        · exact hmem2 m2 hm2 hty2 b hb2

theorem addAllEdges_spec : ∀ (st : List (String × XElem)) (g g' : Pygraph),
    addAllEdges g st = some g' → g.WF →
    g'.WF ∧ g'.nodesList = g.nodesList ∧
    (∀ a b, b ∈ g'.node_neighbors a →
      b ∈ g.node_neighbors a ∨ refEdge st a b) ∧
    (∀ u v, v ∈ g.node_neighbors u → v ∈ g'.node_neighbors u) ∧
    (∀ a b, refEdge st a b →
      b ∈ g'.node_neighbors a ∧ b ∈ g.nodesList ∧ a ∈ g.nodesList)
  | [], g, g', h, hwf => by
    injection h with h
    subst h
    refine ⟨hwf, rfl, fun a b hb => Or.inl hb, fun u v hv => hv, ?_⟩
    rintro a b ⟨kv, hkv, _⟩
    exact absurd hkv (List.not_mem_nil kv)
  | kv :: rest, g, g', h, hwf => by
    unfold addAllEdges at h
    rcases hstep : addMemberEdges g kv.1 kv.2.members with _ | g1
    · rw [hstep] at h
      cases h
    · rw [hstep] at h
      simp only at h
      obtain ⟨hwf1, hnodes1, hchar1, hmono1, hmem1⟩ :=
        addMemberEdges_spec kv.2.members g kv.1 g1 hstep hwf
      obtain ⟨hwf2, hnodes2, hchar2, hmono2, hmem2⟩ :=
        addAllEdges_spec rest g1 g' h hwf1
      refine ⟨hwf2, by rw [hnodes2, hnodes1], ?_, ?_, ?_⟩
      · intro a b hb
        rcases hchar2 a b hb with hb1 | hb1
        · rcases hchar1 a b hb1 with hb2 | ⟨rfl, mem, hmem, hty, href⟩
          · exact Or.inl hb2
          · exact Or.inr ⟨kv, List.mem_cons_self _ _, rfl, mem, hmem, hty, href⟩
        · obtain ⟨kv2, hkv2, hrest⟩ := hb1
          exact Or.inr ⟨kv2, List.mem_cons_of_mem _ hkv2, hrest⟩
      · intro u v hv
        exact hmono2 u v (hmono1 u v hv)
      · rintro a b ⟨kv2, hkv2, hk1, mem, hmem, hty, href⟩
        rcases List.mem_cons.1 hkv2 with rfl | hkv2
        · have := hmem1 mem hmem hty b href
          subst hk1
          exact ⟨hmono2 _ b this.1, this.2.1, this.2.2⟩
        · have := hmem2 a b ⟨kv2, hkv2, hk1, mem, hmem, hty, href⟩
          rw [hnodes1] at this
          exact this

theorem attachRootLoop_spec : ∀ (xs : List String) (g g' : Pygraph),
    attachRootLoop g xs = some g' → g.WF →
    g'.WF ∧ g'.nodesList = g.nodesList ∧
    (∀ a b, b ∈ g'.node_neighbors a →
      b ∈ g.node_neighbors a ∨ a = "root") ∧
    (∀ u v, v ∈ g.node_neighbors u → v ∈ g'.node_neighbors u) ∧
    (∀ x ∈ xs, x ∈ g'.node_neighbors "root" ∨
      ∃ u, u ≠ "root" ∧ x ∈ g.node_neighbors u)
  | [], g, g', h, hwf => by
    injection h with h
    subst h
    exact ⟨hwf, rfl, fun a b hb => Or.inl hb, fun u v hv => hv,
      fun x hx => absurd hx (List.not_mem_nil x)⟩
  | y :: ys, g, g', h, hwf => by
    unfold attachRootLoop at h
    by_cases hemp : (g.node_incidence y).isEmpty
    · rw [if_pos hemp] at h
      rcases hstep : g.add_edge "root" y with _ | g1
      · rw [hstep] at h
        cases h
      · rw [hstep] at h
        simp only at h
        obtain ⟨hroot1, hnodes1, hnb1, _⟩ := add_edge_spec g "root" y g1 hstep
        have hwf1 := add_edge_WF g "root" y g1 hwf hstep
        obtain ⟨hwf2, hnodes2, hchar2, hmono2, hcov2⟩ :=
          attachRootLoop_spec ys g1 g' h hwf1
        refine ⟨hwf2, by rw [hnodes2, hnodes1], ?_, ?_, ?_⟩
        · intro a b hb
          rcases hchar2 a b hb with hb1 | hb1
          · rcases (hnb1 a b).1 hb1 with hb2 | ⟨rfl, rfl⟩
            · exact Or.inl hb2
            · exact Or.inr rfl
          · exact Or.inr hb1
        · intro u v hv
          exact hmono2 u v ((hnb1 u v).2 (Or.inl hv))
        · intro x hx
          rcases List.mem_cons.1 hx with rfl | hx
          · exact Or.inl (hmono2 "root" x ((hnb1 "root" x).2 (Or.inr ⟨rfl, rfl⟩)))
          · rcases hcov2 x hx with hc | ⟨u, hu, hc⟩
            · exact Or.inl hc
            · rcases (hnb1 u x).1 hc with hc2 | ⟨rfl, rfl⟩
              · exact Or.inr ⟨u, hu, hc2⟩
              · exact absurd rfl hu
    · rw [if_neg hemp] at h
      obtain ⟨hwf2, hnodes2, hchar2, hmono2, hcov2⟩ :=
        attachRootLoop_spec ys g g' h hwf
      refine ⟨hwf2, hnodes2, hchar2, hmono2, ?_⟩
      intro x hx
      rcases List.mem_cons.1 hx with rfl | hx
      · rcases hne : g.node_incidence x with _ | ⟨u, us⟩
        · rw [hne] at hemp
          exact absurd rfl hemp
        · have hu : u ∈ g.node_incidence x := by
            rw [hne]
            exact List.mem_cons_self _ _
          have hedge : x ∈ g.node_neighbors u := (hwf.1 u x).2 hu
          by_cases hur : u = "root"
          · subst hur
            exact Or.inl (hmono2 "root" x hedge)
          · exact Or.inr ⟨u, hur, hedge⟩
      · exact hcov2 x hx

theorem buildRelGraph_spec (st : List (String × XElem)) (g : Pygraph)
    (h : buildRelGraph st = some g) :
    g.WF ∧ g.nodesList = st.map Prod.fst ++ ["root"] ∧
    "root" ∉ st.map Prod.fst ∧
    (∀ a b, b ∈ g.node_neighbors a → refEdge st a b ∨ a = "root") ∧
    (∀ a b, refEdge st a b → b ∈ g.node_neighbors a ∧
      b ∈ st.map Prod.fst ∧ a ∈ st.map Prod.fst) ∧
    (∀ x ∈ g.nodesList, x ∈ g.node_neighbors "root" ∨
      ∃ u, u ≠ "root" ∧ refEdge st u x) := by
  unfold buildRelGraph at h
  rcases h1 : Pygraph.empty.add_nodes (st.map Prod.fst) with _ | g1
  · rw [h1] at h
    cases h
  · rw [h1] at h
    simp only at h
    obtain ⟨hn1, hnb1, hinc1⟩ := add_nodes_spec (st.map Prod.fst)
      Pygraph.empty g1 h1 (fun _ => rfl) (fun _ => rfl)
    have hwf1 : g1.WF := by
      constructor
      · intro u v
        rw [hnb1 u, hinc1 v]
        simp
      · intro u v hv
        rw [hnb1 u] at hv
        cases hv
    rcases h2 : addAllEdges g1 st with _ | g2
    · rw [h2] at h
      cases h
    · rw [h2] at h
      simp only at h
      obtain ⟨hwf2, hn2, hchar2, hmono2, hmem2⟩ :=
        addAllEdges_spec st g1 g2 h2 hwf1
      rcases h3 : g2.add_node "root" with _ | g3
      · rw [h3] at h
        cases h
      · rw [h3] at h
        simp only at h
        obtain ⟨hfresh3, hn3, hnbr3, hincr3, hnb3, hinc3⟩ :=
          add_node_spec g2 "root" g3 h3
        have hwf3 := add_node_WF g2 "root" g3 hwf2 h3
        obtain ⟨hwf4, hn4, hchar4, hmono4, hcov4⟩ :=
          attachRootLoop_spec g3.nodesList g3 g h hwf3
        have hkeys1 : g1.nodesList = st.map Prod.fst := by
          rw [hn1]
          rfl
        have hrootfresh : "root" ∉ st.map Prod.fst := by
          rw [← hkeys1, ← hn2]
          exact hfresh3
        have hedge3 : ∀ a b, b ∈ g3.node_neighbors a →
            refEdge st a b ∨ a = "root" := by
          intro a b hb
          by_cases ha : a = "root"
          · exact Or.inr ha
          · rw [hnb3 a ha] at hb
            rcases hchar2 a b hb with hb1 | hb1
            · rw [hnb1 a] at hb1
              cases hb1
            · exact Or.inl hb1
        refine ⟨hwf4, ?_, hrootfresh, ?_, ?_, ?_⟩
        · rw [hn4, hn3, hn2, hkeys1]
        · intro a b hb
          rcases hchar4 a b hb with hb1 | hb1
          · exact hedge3 a b hb1
          · exact Or.inr hb1
        · intro a b hab
          have := hmem2 a b hab
          have hanr : a ≠ "root" := by
            intro hc
            rw [hkeys1] at this
            exact hrootfresh (hc ▸ this.2.2)
          refine ⟨hmono4 a b ?_, ?_, ?_⟩
          · rw [hnb3 a hanr]
            exact this.1
          · rw [← hkeys1]
            exact this.2.1
          · rw [← hkeys1]
            exact this.2.2
        · intro x hx
          have hx3 : x ∈ g3.nodesList := by
            rw [hn4] at hx
            exact hx
          rcases hcov4 x hx3 with hc | ⟨u, hu, hc⟩
          · exact Or.inl hc
          · rcases hedge3 u x hc with hc2 | hc2
            · exact Or.inr ⟨u, hu, hc2⟩
            · exact absurd hc2 hu

theorem unvisited_pos (g : Pygraph) (v : List String) (n : String)
    (hn : n ∈ g.nodesList) (hv : n ∉ v) : 0 < unvisited g v := by
  unfold unvisited
  have : n ∈ g.nodesList.filter (fun x => decide (x ∉ v)) := by
    rw [List.mem_filter]
    exact ⟨hn, by simpa using hv⟩
  exact List.length_pos.2 (List.ne_nil_of_mem this)

theorem visitOK_zero (g : Pygraph) : VisitOK g 0 := by
  intro v n hn hv hfuel
  have := unvisited_pos g v n hn hv
  omega

theorem childrenOK_of_visitOK (g : Pygraph) (fuel : Nat)
    (hP : VisitOK g fuel) : ChildrenOK g fuel := by
  intro xs
  induction xs with
  | nil =>
    intro v hxs hfuel
    have he : g.dfsChildren false true fuel [] v = ([], v) := by
      rw [Pygraph.dfsChildren]
    rw [he]
    simp only
    refine ⟨?_, ?_, List.nodup_nil, ?_, ?_, ?_, ?_⟩
    · intro y
      simp
    · intro y hy
      cases hy
    · intro y hy
      cases hy
    · intro a ha
      cases ha
    · intro a ha
      cases ha
    · intro a ha
      cases ha
  | cons x xs ih =>
    intro v hxs hfuel
    have hxnode : x ∈ g.nodesList := hxs x (List.mem_cons_self _ _)
    have hxsnodes : ∀ y ∈ xs, y ∈ g.nodesList :=
      fun y hy => hxs y (List.mem_cons_of_mem _ hy)
    by_cases hxv : x ∈ v
    · have he : g.dfsChildren false true fuel (x :: xs) v
          = g.dfsChildren false true fuel xs v := by
        rw [Pygraph.dfsChildren]
        rw [if_pos hxv]
      obtain ⟨k1, k2, k3, k8, k7, k6, k5⟩ := ih v hxsnodes hfuel
      rw [he]
      refine ⟨k1, k2, k3, ?_, ?_, k6, k5⟩
      · intro y hy
        rcases List.mem_cons.1 hy with rfl | hy
        · exact Or.inl hxv
        · exact k8 y hy
      · intro a ha
        obtain ⟨y, hy1, hy2, hy3⟩ := k7 a ha
        exact ⟨y, List.mem_cons_of_mem _ hy1, hy2, hy3⟩
    · have hp := hP v x hxnode hxv hfuel
      rcases hr1 : g.dfsVisit false true fuel v x with ⟨out1, v1⟩
      rw [hr1] at hp
      simp only at hp
      obtain ⟨p1, p2, p3, p4, p7, p6, p5⟩ := hp
      have hsub : ∀ y, y ∈ v → y ∈ v1 := fun y hy => (p1 y).2 (Or.inl hy)
      have hfuel2 : unvisited g v1 ≤ fuel :=
        le_trans (unvisited_le g v v1 hsub) hfuel
      have hc := ih v1 hxsnodes hfuel2
      rcases hr2 : g.dfsChildren false true fuel xs v1 with ⟨out2, v2⟩
      rw [hr2] at hc
      simp only at hc
      obtain ⟨k1, k2, k3, k8, k7, k6, k5⟩ := hc
      have he : g.dfsChildren false true fuel (x :: xs) v
          = (out1 ++ out2, v2) := by
        rw [Pygraph.dfsChildren]
        rw [if_neg hxv]
        simp only [hr1]
        simp only [hr2]
      rw [he]
      simp only
      refine ⟨?_, ?_, ?_, ?_, ?_, ?_, ?_⟩
      · intro y
        rw [k1 y, p1 y, List.mem_append]
        tauto
      · intro y hy
        rcases List.mem_append.1 hy with hy | hy
        · exact p2 y hy
        · intro hyv
          exact k2 y hy (hsub y hyv)
      · refine List.Nodup.append p3 k3 ?_
        intro a ha1 ha2
        exact k2 a ha2 ((p1 a).2 (Or.inr ha1))
      · intro y hy
        rcases List.mem_cons.1 hy with rfl | hy
        · obtain ⟨pre, hpre⟩ := p4
          refine Or.inr (List.mem_append_left _ ?_)
          rw [hpre]
          exact List.mem_append_right _ (List.mem_singleton.2 rfl)
        · rcases k8 y hy with hy1 | hy1
          · rcases (p1 y).1 hy1 with hy2 | hy2
            · exact Or.inl hy2
            · exact Or.inr (List.mem_append_left _ hy2)
          · exact Or.inr (List.mem_append_right _ hy1)
      · intro a ha
        rcases List.mem_append.1 ha with ha | ha
        · exact ⟨x, List.mem_cons_self _ _, hxv, p7 a ha⟩
        · obtain ⟨y, hy1, hy2, hy3⟩ := k7 a ha
          exact ⟨y, List.mem_cons_of_mem _ hy1,
            fun hyv => hy2 (hsub y hyv), hy3⟩
      · intro a ha b hb
        rcases List.mem_append.1 ha with ha | ha
        · exact (k1 b).2 (Or.inl (p6 a ha b hb))
        · exact k6 a ha b hb
      · intro a ha b hb
        rcases List.mem_append.1 ha with ha | ha
        · rcases p5 a ha b hb with h1 | h1 | h1
          · exact Or.inl h1
          · exact Or.inr (Or.inl (h1.trans (List.sublist_append_left _ _)))
          · exact Or.inr (Or.inr h1)
        · rcases k5 a ha b hb with h1 | h1 | h1
          · rcases (p1 b).1 h1 with h2 | h2
            · exact Or.inl h2
            · exact Or.inr (Or.inl (sublist_pair_append b a out1 out2 h2 ha))
          · exact Or.inr (Or.inl (h1.trans (List.sublist_append_right _ _)))
          · exact Or.inr (Or.inr h1)

theorem visitOK_succ (g : Pygraph) (rnk : String → Nat)
    (hadj : adjClosed g) (hrk : rankOk g rnk) (fuel : Nat)
    (hQ : ChildrenOK g fuel) : VisitOK g (fuel + 1) := by
  intro v n hn hv hfuel
  have hfuel2 : unvisited g (v ++ [n]) ≤ fuel := by
    have := unvisited_snoc_lt g v n hn hv
    omega
  have hadjn : ∀ y ∈ g.node_neighbors n, y ∈ g.nodesList :=
    fun y hy => hadj n y hy
  have hc := hQ (g.node_neighbors n) (v ++ [n]) hadjn hfuel2
  rcases hr : g.dfsChildren false true fuel (g.node_neighbors n) (v ++ [n])
    with ⟨out2, v2⟩
  rw [hr] at hc
  simp only at hc
  obtain ⟨k1, k2, k3, k8, k7, k6, k5⟩ := hc
  have he : g.dfsVisit false true (fuel + 1) v n = (out2 ++ [n], v2) := by
    rw [Pygraph.dfsVisit]
    simp only [hr]
    simp
  rw [he]
  simp only
  have hnin : n ∈ v ++ [n] := List.mem_append_right _ (List.mem_singleton.2 rfl)
  refine ⟨?_, ?_, ?_, ⟨out2, rfl⟩, ?_, ?_, ?_⟩
  · intro y
    rw [k1 y]
    simp only [List.mem_append, List.mem_singleton]
    tauto
  · intro y hy
    rcases List.mem_append.1 hy with hy | hy
    · intro hyv
      exact k2 y hy (List.mem_append_left _ hyv)
    · rw [List.mem_singleton.1 hy]
      exact hv
  · refine List.Nodup.append k3 (List.nodup_singleton n) ?_
    intro a ha1 ha2
    rw [List.mem_singleton.1 ha2] at ha1
    exact k2 n ha1 hnin
  · intro a ha
    rcases List.mem_append.1 ha with ha | ha
    · obtain ⟨y, hy1, hy2, hy3⟩ := k7 a ha
      exact Reaches.step hy1 hy3
    · rw [List.mem_singleton.1 ha]
      exact Reaches.refl n
  · intro a ha b hb
    rcases List.mem_append.1 ha with ha | ha
    · exact k6 a ha b hb
    · rw [List.mem_singleton.1 ha] at hb
      rcases k8 b hb with hb1 | hb1
      · exact (k1 b).2 (Or.inl hb1)
      · exact (k1 b).2 (Or.inr hb1)
  · intro a ha b hb
    rcases List.mem_append.1 ha with ha | ha
    · rcases k5 a ha b hb with h1 | h1 | h1
      · rcases List.mem_append.1 h1 with h2 | h2
        · exact Or.inl h2
        · -- b = n : a has an edge to the call node; impossible unless root
          rw [List.mem_singleton.1 h2] at hb
          obtain ⟨y, hy1, hy2, hy3⟩ := k7 a ha
          have hreach : Reaches g n a := Reaches.step hy1 hy3
          by_cases hroots : a = "root" ∧ n = "root"
          · exact Or.inr (Or.inr ⟨hroots.1, (List.mem_singleton.1 h2) ▸ hroots.2⟩)
          · have h3 := hrk a n hb hroots
            have h4 := reaches_rank hrk hreach
            omega
      · exact Or.inr (Or.inl (h1.trans (List.sublist_append_left _ _)))
      · exact Or.inr (Or.inr h1)
    · rw [List.mem_singleton.1 ha] at hb ⊢
      rcases k8 b hb with hb1 | hb1
      · rcases List.mem_append.1 hb1 with hb2 | hb2
        · exact Or.inl hb2
        · -- self-loop n → n
          rw [List.mem_singleton.1 hb2] at hb ⊢
          by_cases hroots : n = "root"
          · exact Or.inr (Or.inr ⟨hroots, hroots⟩)
          · have h3 := hrk n n hb (fun hc => hroots hc.1)
            omega
      · exact Or.inr (Or.inl (sublist_pair_snoc b n out2 hb1))

theorem visitOK_all (g : Pygraph) (rnk : String → Nat)
    (hadj : adjClosed g) (hrk : rankOk g rnk) :
    ∀ fuel, VisitOK g fuel := by
  intro fuel
  induction fuel with
  | zero => exact visitOK_zero g
  | succ f ih =>
    exact visitOK_succ g rnk hadj hrk f (childrenOK_of_visitOK g f ih)

theorem traversal_post_spec (g : Pygraph) (rnk : String → Nat)
    (hadj : adjClosed g) (hrk : rankOk g rnk)
    (hroot : "root" ∈ g.nodesList) :
    (g.traversal "root" "post").Nodup ∧
    (∃ pre, g.traversal "root" "post" = pre ++ ["root"]) ∧
    (∀ x, Reaches g "root" x → x ∈ g.traversal "root" "post") ∧
    (∀ a ∈ g.traversal "root" "post", Reaches g "root" a) ∧
    (∀ a ∈ g.traversal "root" "post", ∀ b ∈ g.node_neighbors a,
      [b, a].Sublist (g.traversal "root" "post") ∨
        (a = "root" ∧ b = "root")) := by
  have htr : g.traversal "root" "post"
      = (g.dfsVisit false true (g.nodesList.length + 1) [] "root").1 := rfl
  have hp := visitOK_all g rnk hadj hrk (g.nodesList.length + 1) []
    "root" hroot (List.not_mem_nil _)
    (le_trans (unvisited_le_card g) (Nat.le_succ _))
  rcases hr : g.dfsVisit false true (g.nodesList.length + 1) [] "root"
    with ⟨out, v2⟩
  rw [hr] at hp
  simp only at hp
  obtain ⟨k1, k2, k3, k4, k7, k6, k5⟩ := hp
  rw [htr, hr]
  simp only
  have hrootout : "root" ∈ out := by
    obtain ⟨pre, hpre⟩ := k4
    rw [hpre]
    exact List.mem_append_right _ (List.mem_singleton.2 rfl)
  refine ⟨k3, k4, ?_, k7, ?_⟩
  · have hcomp : ∀ c x, Reaches g c x → c ∈ out → x ∈ out := by
      intro c x h
      induction h with
      | refl a => exact fun h => h
      | step hab hr2 ih =>
        intro hc
        rcases (k1 _).1 (k6 _ hc _ hab) with h2 | h2
        · cases h2
        · exact ih h2
    exact fun x h => hcomp "root" x h hrootout
  · intro a ha b hb
    rcases k5 a ha b hb with h1 | h1 | h1
    · cases h1
    · exact Or.inl h1
    · exact Or.inr h1

theorem le_foldr_max (l : List Nat) : ∀ x ∈ l, x ≤ l.foldr max 0 := by
  induction l with
  | nil => intro x hx; cases hx
  | cons y ys ih =>
    intro x hx
    rcases List.mem_cons.1 hx with rfl | hx
    · exact Nat.le_max_left _ _
    · exact le_trans (ih x hx) (Nat.le_max_right _ _)

theorem reaches_cases {g : Pygraph} {u a : String} (h : Reaches g u a) :
    a = u ∨ ∃ w, a ∈ g.node_neighbors w := by
  induction h with
  | refl x => exact Or.inl rfl
  | step hab hr ih =>
    rename_i c b d
    rcases ih with rfl | ⟨w, hw⟩
    · exact Or.inr ⟨c, hab⟩
    · exact Or.inr ⟨w, hw⟩

theorem keyMax_le (st : List (String × XElem)) (rnk : String → Nat)
    (x : String) (hx : x ∈ st.map Prod.fst) : rnk x ≤ keyMax st rnk :=
  le_foldr_max _ (rnk x) (List.mem_map_of_mem rnk hx)

theorem rootRank_spec (st : List (String × XElem)) (rnk : String → Nat)
    (g : Pygraph) (hgs : buildRelGraph st = some g)
    (hrk : ∀ kv ∈ st, ∀ mem ∈ kv.2.members, mem.mtype = "relation" →
      ∀ r, mem.ref = some r → rnk r < rnk kv.1) :
    rankOk g (rootRank st rnk) := by
  obtain ⟨hwf, hnodes, hrootfresh, hchar, hmem, hcov⟩ :=
    buildRelGraph_spec st g hgs
  intro u v hv hnotroot
  rcases hchar u v hv with he | he
  · obtain ⟨hvnb, hvkeys, hukeys⟩ := hmem u v he
    have hu : u ≠ "root" := fun hc => hrootfresh (hc ▸ hukeys)
    have hvr : v ≠ "root" := fun hc => hrootfresh (hc ▸ hvkeys)
    show (if v = "root" then _ else rnk v) < (if u = "root" then _ else rnk u)
    rw [if_neg hu, if_neg hvr]
    obtain ⟨kv, hkv, hk1, mem, hmemm, hty, href⟩ := he
    subst hk1
    exact hrk kv hkv mem hmemm hty v href
  · have hvr : v ≠ "root" := fun hc => hnotroot ⟨he, hc⟩
    have hvnode : v ∈ g.nodesList := (hwf.2 u v hv).2
    rw [hnodes] at hvnode
    have hvkeys : v ∈ st.map Prod.fst := by
      rcases List.mem_append.1 hvnode with h | h
      · exact h
      · exact absurd (List.mem_singleton.1 h) hvr
    show (if v = "root" then _ else rnk v) < (if u = "root" then _ else rnk u)
    rw [if_neg hvr, if_pos he]
    have := keyMax_le st rnk v hvkeys
    omega

theorem keys_reach_root (st : List (String × XElem)) (rnk : String → Nat)
    (g : Pygraph) (hgs : buildRelGraph st = some g)
    (hrk : ∀ kv ∈ st, ∀ mem ∈ kv.2.members, mem.mtype = "relation" →
      ∀ r, mem.ref = some r → rnk r < rnk kv.1) :
    ∀ x ∈ st.map Prod.fst, Reaches g "root" x := by
  obtain ⟨hwf, hnodes, hrootfresh, hchar, hmem, hcov⟩ :=
    buildRelGraph_spec st g hgs
  have haux : ∀ m, ∀ x, x ∈ st.map Prod.fst →
      keyMax st rnk + 1 - rnk x ≤ m → Reaches g "root" x := by
    intro m
    induction m with
    | zero =>
      intro x hx hle
      have := keyMax_le st rnk x hx
      omega
    | succ m ih =>
      intro x hx hle
      have hxnode : x ∈ g.nodesList := by
        rw [hnodes]
        exact List.mem_append_left _ hx
      rcases hcov x hxnode with hc | ⟨u, hu, href⟩
      · exact Reaches.step hc (Reaches.refl x)
      · obtain ⟨hxnb, hxkeys2, hukeys⟩ := hmem u x href
        have hrlt : rnk x < rnk u := by
          obtain ⟨kv, hkv, hk1, mem, hmemm, hty, hrefm⟩ := href
          subst hk1
          exact hrk kv hkv mem hmemm hty x hrefm
        have hub := keyMax_le st rnk u hukeys
        have hxb := keyMax_le st rnk x hx
        exact Reaches.snoc (ih u hukeys (by omega)) hxnb
  intro x hx
  have hxb := keyMax_le st rnk x hx
  exact haux (keyMax st rnk + 1) x hx (by omega)

/-- C1: whenever the dependency graph of a relation store is built
successfully and the store's references admit a strictly decreasing
rank (they form a forest, hence are acyclic), the resolver emits every
stored relation exactly once and places every referenced relation
before each relation that references it: for each reference `A → B` of
the store, `B` precedes `A` in the output (`[B, A]` is a sublist of the
output order).  In particular, for the chain R1 → R2 → R3 the output
order is R3, R2, R1. -/
theorem C1_dependency_ordering (st : List (String × XElem))
    (rnk : String → Nat) (hg : (buildRelGraph st).isSome)
    (hrk : ∀ kv ∈ st, ∀ mem ∈ kv.2.members, mem.mtype = "relation" →
      ∀ r, mem.ref = some r → rnk r < rnk kv.1) :
    ∃ out, resolverOrder st = some out ∧ out.Nodup ∧
      (∀ kv ∈ st, kv.1 ∈ out) ∧
      (∀ x ∈ out, x ∈ st.map Prod.fst) ∧
      (∀ kv ∈ st, ∀ mem ∈ kv.2.members, mem.mtype = "relation" →
        ∀ r, mem.ref = some r → [r, kv.1].Sublist out) := by
  rcases hgs : buildRelGraph st with _ | g
  · rw [hgs] at hg
    cases hg
  obtain ⟨hwf, hnodes, hrootfresh, hchar, hmem, hcov⟩ :=
    buildRelGraph_spec st g hgs
  have hadj : adjClosed g := fun u v hv => (hwf.2 u v hv).2
  have hrk2 := rootRank_spec st rnk g hgs hrk
  have hroot : "root" ∈ g.nodesList := by
    rw [hnodes]
    exact List.mem_append_right _ (List.mem_singleton.2 rfl)
  obtain ⟨hnodup, hpost, hreachin, hallreach, horder⟩ :=
    traversal_post_spec g (rootRank st rnk) hadj hrk2 hroot
  have hkeys := keys_reach_root st rnk g hgs hrk
  refine ⟨(g.traversal "root" "post").filter (fun rid => rid ≠ "root"),
    ?_, ?_, ?_, ?_, ?_⟩
  · unfold resolverOrder
    rw [hgs]
    rfl
  · exact hnodup.filter _
  · intro kv hkv
    have hk : kv.1 ∈ st.map Prod.fst := List.mem_map_of_mem Prod.fst hkv
    have hne : kv.1 ≠ "root" := fun hc => hrootfresh (hc ▸ hk)
    rw [List.mem_filter]
    exact ⟨hreachin kv.1 (hkeys kv.1 hk), by simpa using hne⟩
  · intro x hx
    rw [List.mem_filter] at hx
    obtain ⟨hx1, hx2⟩ := hx
    have hne : x ≠ "root" := by simpa using hx2
    rcases reaches_cases (hallreach x hx1) with rfl | ⟨w, hw⟩
    · exact absurd rfl hne
    · have hxnode : x ∈ g.nodesList := hadj w x hw
      rw [hnodes] at hxnode
      rcases List.mem_append.1 hxnode with h | h
      · exact h
      · exact absurd (List.mem_singleton.1 h) hne
  · intro kv hkv mem hmemm hty r href
    have hedge : refEdge st kv.1 r := ⟨kv, hkv, rfl, mem, hmemm, hty, href⟩
    obtain ⟨hrnb, hrkeys, hkkeys⟩ := hmem kv.1 r hedge
    have hkne : kv.1 ≠ "root" := fun hc => hrootfresh (hc ▸ hkkeys)
    have hrne : r ≠ "root" := fun hc => hrootfresh (hc ▸ hrkeys)
    have hktr : kv.1 ∈ g.traversal "root" "post" :=
      hreachin kv.1 (hkeys kv.1 hkkeys)
    rcases horder kv.1 hktr r hrnb with h1 | h1
    · have h2 := h1.filter (fun rid => decide (rid ≠ "root"))
      have h3 : ([r, kv.1].filter (fun rid => decide (rid ≠ "root")))
          = [r, kv.1] := by
        simp [hrne, hkne]
      rw [h3] at h2
      exact h2
    · exact absurd h1.1 hkne

theorem C1_dependency_ordering_witness :
    ((buildRelGraph (relationStoreOf chainRels)).isSome) ∧
    (∀ kv ∈ relationStoreOf chainRels, ∀ mem ∈ kv.2.members,
      mem.mtype = "relation" → ∀ r, mem.ref = some r →
        chainRank r < chainRank kv.1) ∧
    (∃ out, resolverOrder (relationStoreOf chainRels) = some out ∧
      out.Nodup ∧
      (∀ kv ∈ relationStoreOf chainRels, kv.1 ∈ out) ∧
      (∀ x ∈ out, x ∈ (relationStoreOf chainRels).map Prod.fst) ∧
      (∀ kv ∈ relationStoreOf chainRels, ∀ mem ∈ kv.2.members,
        mem.mtype = "relation" → ∀ r, mem.ref = some r →
          [r, kv.1].Sublist out)) :=
  ⟨by decide, by decide,
   C1_dependency_ordering (relationStoreOf chainRels) chainRank
     (by decide) (by decide)⟩
